import Mathlib

/-
Verification of the subscription catalog (src/subscription.c of luna-service2).

The catalog state is embedded shallowly: the two GHashTable indexes become
association lists with first-occurrence lookup, a _SubList (GPtrArray of
token strings) becomes a List String, and a _Subscription record keeps its
message, its key array and its reference count.  The external collaborators
(LSMessage accessors, json-c, the transport) are modelled as fields of a
Message record and small total functions, following the narrow interfaces
the code consumes.
-/

/-- Modelled result of json_tokener_parse applied to a payload: a JSON value
as far as the catalog inspects it (objects of scalar fields). -/
inductive JValue where
  | jnull : JValue
  | jbool : Bool → JValue
  | jint : Int → JValue
  | jstr : String → JValue
deriving DecidableEq

/-- Modelled json_object_object_get_ex on a parsed object: first binding of
the field name, if any. -/
def json_object_object_get_ex : List (String × JValue) → String → Option JValue
  | [], _ => none
  | (k, v) :: rest, key => if k = key then some v else json_object_object_get_ex rest key

/-- Modelled json_object_get_int coercion of a scalar JSON value. -/
def json_object_get_int : JValue → Int
  | JValue.jint n => n
  | JValue.jbool b => if b then 1 else 0
  | JValue.jnull => 0
  | JValue.jstr _ => 0

/-- Modelled json_object_get_boolean coercion of a scalar JSON value. -/
def json_object_get_boolean : JValue → Bool
  | JValue.jbool b => b
  | JValue.jint n => decide (n ≠ 0)
  | JValue.jnull => false
  | JValue.jstr s => decide (s ≠ "")

/-- An inbound LSMessage as the catalog observes it through the message
accessors: unique token (LSMessageGetUniqueToken), sender unique name
(LSMessageGetSender), sender service name, raw payload, the modelled parse
of that payload (none when json_tokener_parse reports an error), and the
kind string category+method (LSMessageGetKind). -/
structure Message where
  uniqueToken : String
  sender : String
  senderServiceName : String
  payload : String
  payloadParse : Option (List (String × JValue))
  kind : String
deriving DecidableEq

/-- One _Subscription record: the message, the GPtrArray of keys it is
registered under, and its reference count. -/
structure Subscription where
  message : Message
  keys : List String
  ref : Nat
deriving DecidableEq

/-- Association list with first-occurrence lookup, embedding a GHashTable
keyed by strings. -/
def lookupA {α : Type} : List (String × α) → String → Option α
  | [], _ => none
  | (k, v) :: rest, key => if k = key then some v else lookupA rest key

/-- g_hash_table_replace: overwrite the first binding of the key in place, or
append a fresh binding. -/
def insertA {α : Type} : List (String × α) → String → α → List (String × α)
  | [], key, v => [(key, v)]
  | (k, w) :: rest, key, v =>
      if k = key then (key, v) :: rest else (k, w) :: insertA rest key v

/-- g_hash_table_remove: drop the first binding of the key, if present. -/
def eraseA {α : Type} : List (String × α) → String → List (String × α)
  | [], _ => []
  | (k, w) :: rest, key => if k = key then rest else (k, w) :: eraseA rest key

/-- Key column of an association list. -/
def keysOf {α : Type} (l : List (String × α)) : List String := l.map Prod.fst

/-- The _Catalog state: token_map (token to _Subscription), subscription_lists
(key to _SubList of tokens), and whether a cancel_function is installed. -/
structure Catalog where
  token_map : List (String × Subscription)
  subscription_lists : List (String × List String)
  cancel_fn : Bool
deriving DecidableEq

/-- A fresh catalog, as _CatalogNew leaves it: both indexes empty, no
cancellation hook. -/
def emptyCatalog : Catalog :=
  { token_map := [], subscription_lists := [], cancel_fn := false }

/-- strncmp(a, b, 50) == 0: the two strings agree on their first 50
characters (a shorter string must end where the other does). -/
def strncmpEq50 (a b : String) : Bool := decide (a.data.take 50 = b.data.take 50)

/-- _SubListAdd: append a token to a subscription list. -/
def _SubListAdd (tokens : List String) (data : String) : List String := tokens ++ [data]

/-- _SubListLen of a list. -/
def _SubListLen (tokens : List String) : Nat := tokens.length

/-- _SubListDup: deep copy of the list (pure model: the list itself). -/
def _SubListDup (src : List String) : List String := src

/-- _SubListRemove: delete the first entry whose first 50 characters agree
with the argument. -/
def _SubListRemove : List String → String → List String
  | [], _ => []
  | tok :: rest, data =>
      if strncmpEq50 tok data then rest else tok :: _SubListRemove rest data

/-- _SubListContains: membership up to agreement on the first 50
characters. -/
def _SubListContains (tokens : List String) (data : String) : Bool :=
  tokens.any (fun tok => strncmpEq50 tok data)

/-- g_char_ptr_array_contains: membership by full strcmp equality, used for
the key array of a _Subscription. -/
def g_char_ptr_array_contains (array : List String) (data : String) : Bool :=
  array.any (fun tok => tok = data)

/-- _SubListGet: indexed access with the C int index; out of range (including
the index -1 a fresh iterator holds) yields none. -/
def _SubListGet (tokens : List String) (i : Int) : Option String :=
  if i < 0 ∨ (tokens.length : Int) ≤ i then none
  else tokens.get? i.toNat

/-- _SubscriptionAcquire: look the token up in token_map; on success the
reference count is incremented, returning the subscription found and the
catalog with the incremented count. -/
def _SubscriptionAcquire (c : Catalog) (uniqueToken : String) :
    Option Subscription × Catalog :=
  match lookupA c.token_map uniqueToken with
  | none => (none, c)
  | some subs =>
      (some subs,
       { c with token_map :=
           insertA c.token_map uniqueToken { subs with ref := subs.ref + 1 } })

/-- _CatalogAdd: fetch-or-create the key's list, fetch-or-create the token's
subscription (ok models whether _SubscriptionNew succeeds, i.e. whether the
registerServerStatus call of the disconnect watch succeeds), then insert the
token into the list unless _SubListContains finds it and the key into the
subscription's key array unless g_char_ptr_array_contains finds it.  Returns
the retVal flag and the catalog state afterwards. -/
def _CatalogAdd (c : Catalog) (key : String) (m : Message) (ok : Bool) :
    Bool × Catalog :=
  let token := m.uniqueToken
  let list₀ := lookupA c.subscription_lists key
  let lists₁ :=
    match list₀ with
    | none => insertA c.subscription_lists key []
    | some _ => c.subscription_lists
  let list := match list₀ with | none => [] | some l => l
  match lookupA c.token_map token with
  | none =>
      if ok then
        let subs : Subscription := { message := m, keys := [], ref := 1 }
        let tm₁ := insertA c.token_map token subs
        let lists₂ :=
          if _SubListContains list token then lists₁
          else insertA lists₁ key (_SubListAdd list token)
        let tm₂ :=
          if g_char_ptr_array_contains subs.keys key then tm₁
          else insertA tm₁ token { subs with keys := subs.keys ++ [key] }
        (true, { c with token_map := tm₂, subscription_lists := lists₂ })
      else
        (false, { c with subscription_lists := lists₁ })
  | some subs =>
      let lists₂ :=
        if _SubListContains list token then lists₁
        else insertA lists₁ key (_SubListAdd list token)
      let tm₂ :=
        if g_char_ptr_array_contains subs.keys key then c.token_map
        else insertA c.token_map token { subs with keys := subs.keys ++ [key] }
      (true, { c with token_map := tm₂, subscription_lists := lists₂ })

/-- One iteration of the per-key loop of _CatalogRemoveToken: remove the
token from the key's list (g_hash_table_lookup returning NULL makes
_SubListRemove a no-op and _SubListLen zero, so an absent key is removed
again harmlessly) and delete the binding when the list became empty. -/
def _CatalogRemoveKeyStep (token : String) (lists : List (String × List String))
    (key : String) : List (String × List String) :=
  match lookupA lists key with
  | none => eraseA lists key
  | some l =>
      let l₂ := _SubListRemove l token
      if _SubListLen l₂ = 0 then eraseA lists key
      else insertA lists key l₂

/-- The per-key loop of _CatalogRemoveToken over the subscription's key
array, in order. -/
def _CatalogRemoveKeys (token : String) :
    List String → List (String × List String) → List (String × List String)
  | [], lists => lists
  | key :: rest, lists =>
      _CatalogRemoveKeys token rest (_CatalogRemoveKeyStep token lists key)

/-- _CatalogRemoveToken: acquire a temporary reference (returning false with
the state untouched when the token is gone), walk the subscription's keys
removing the token from each list and deleting emptied lists, then
_SubscriptionRemove drops the token from token_map; the two releases free
the record once its count reaches zero and do not touch the indexes. -/
def _CatalogRemoveToken (c : Catalog) (token : String) (notify : Bool) :
    Bool × Catalog :=
  match _SubscriptionAcquire c token with
  | (none, _) => (false, c)
  | (some subs, c₁) =>
      let lists' := _CatalogRemoveKeys token subs.keys c₁.subscription_lists
      let tm' := eraseA c₁.token_map token
      (true, { c₁ with token_map := tm', subscription_lists := lists' })

/-- Cancellation callbacks a run of _CatalogRemoveToken invokes: the
subscription's message, when notify is set, the token resolves and a
cancel_function is installed. -/
def _CatalogRemoveTokenCallbacks (c : Catalog) (token : String) (notify : Bool) :
    List Message :=
  match lookupA c.token_map token with
  | none => []
  | some subs => if notify ∧ c.cancel_fn then [subs.message] else []

/-- _CatalogHandleCancel: parse the payload; on parse error or a missing
token field fail with the state untouched; otherwise rebuild the unique
token as sender.token and run _CatalogRemoveToken with notify, ignoring
whether it found anything. -/
def _CatalogHandleCancel (c : Catalog) (cancelMsg : Message) : Bool × Catalog :=
  match cancelMsg.payloadParse with
  | none => (false, c)
  | some object =>
      match json_object_object_get_ex object "token" with
      | none => (false, c)
      | some tokenObj =>
          let token := json_object_get_int tokenObj
          let uniqueToken := cancelMsg.sender ++ "." ++ toString token
          (true, (_CatalogRemoveToken c uniqueToken true).2)

/-- One row of the rendered snapshot: unique_name, service_name and
subscription_message of a live subscriber. -/
structure SnapshotEntry where
  unique_name : String
  service_name : String
  subscription_message : String
deriving DecidableEq

/-- _LSSubscriptionGetJson, reduced to the data it renders: every key of
subscription_lists paired with the rows for those tokens that still resolve
in token_map. -/
def _LSSubscriptionGetJson (c : Catalog) : List (String × List SnapshotEntry) :=
  c.subscription_lists.map (fun p =>
    (p.1, p.2.filterMap (fun tok =>
      (lookupA c.token_map tok).map (fun sub =>
        { unique_name := sub.message.sender
          service_name := sub.message.senderServiceName
          subscription_message := sub.message.payload }))))

/-- LSSubscriptionReply, with LSMessageReply modelled as a successful
delivery: under the lock, walk the key's live list and deliver the payload
to each token that resolves in token_map.  Returns retVal and the
deliveries performed, in order. -/
def LSSubscriptionReply (c : Catalog) (key : String) (payload : String) :
    Bool × List (Message × String) :=
  match lookupA c.subscription_lists key with
  | none => (true, [])
  | some tokens =>
      (true, tokens.filterMap (fun tok =>
        (lookupA c.token_map tok).map (fun subs => (subs.message, payload))))

/-- LSSubscriptionRespond: reply on the public connection, then on the
private one. -/
def LSSubscriptionRespond (pub priv : Catalog) (key : String) (payload : String) :
    Bool × List (Message × String) :=
  let r₁ := LSSubscriptionReply pub key payload
  let r₂ := LSSubscriptionReply priv key payload
  (r₁.1 && r₂.1, r₁.2 ++ r₂.2)

/-- An LSSubscriptionIter: the duplicated token list, the accumulated
referenced messages, and the cursor (starting at -1). -/
structure LSSubscriptionIter where
  tokens : List String
  seen_messages : List Message
  index : Int
deriving DecidableEq

/-- LSSubscriptionAcquire: duplicate the key's current list under the lock
(an absent key yields the empty snapshot) and start the cursor at -1. -/
def LSSubscriptionAcquire (c : Catalog) (key : String) : LSSubscriptionIter :=
  { tokens := _SubListDup ((lookupA c.subscription_lists key).getD [])
    seen_messages := []
    index := -1 }

/-- LSSubscriptionHasNext: the next cursor position is within the
snapshot. -/
def LSSubscriptionHasNext (iter : LSSubscriptionIter) : Bool :=
  decide (iter.index + 1 < (iter.tokens.length : Int))

/-- LSSubscriptionNext: advance the cursor; resolve the token there via
_SubscriptionAcquire; when found, reference the message, prepend it to
seen_messages, release the temporary handle and return it.  Returns the
message (none when the slot no longer resolves), the iterator afterwards,
and the catalog after the acquire and release. -/
def LSSubscriptionNext (c : Catalog) (iter : LSSubscriptionIter) :
    Option Message × LSSubscriptionIter × Catalog :=
  let idx := iter.index + 1
  match _SubListGet iter.tokens idx with
  | none => (none, { iter with index := idx }, c)
  | some tok =>
      match _SubscriptionAcquire c tok with
      | (none, _) => (none, { iter with index := idx }, c)
      | (some subs, c₁) =>
          let message := subs.message
          let iter' :=
            { iter with index := idx, seen_messages := message :: iter.seen_messages }
          let c₂ :=
            { c₁ with token_map :=
                insertA c₁.token_map tok { subs with ref := subs.ref + 1 - 1 } }
          (some message, iter', c₂)

/-- LSSubscriptionRemove on the iterator: remove the token at the current
cursor with notify false; out of range does nothing. -/
def LSSubscriptionRemoveCurrent (c : Catalog) (iter : LSSubscriptionIter) : Catalog :=
  match _SubListGet iter.tokens iter.index with
  | none => c
  | some tok => (_CatalogRemoveToken c tok false).2

/-- LSSubscriptionProcess: parse the payload (failure leaves the subscribed
flag as it was); a missing subscribe field succeeds without adding; a
subscribe field coerced to true adds under the kind key and reports whether
that add succeeded. -/
def LSSubscriptionProcess (c : Catalog) (m : Message) (subscribed : Bool)
    (ok : Bool) : Bool × Bool × Catalog :=
  match m.payloadParse with
  | none => (false, subscribed, c)
  | some object =>
      match json_object_object_get_ex object "subscribe" with
      | none => (true, false, c)
      | some subObj =>
          if json_object_get_boolean subObj then
            let r := _CatalogAdd c m.kind m ok
            (r.1, r.1, r.2)
          else
            (true, false, c)

/-
Lock-discipline traces.  An execution of a catalog entry point is abstracted
to the sequence of mutex operations and re-entrant external invocations it
performs, in program order; a fold then records whether the catalog mutex is
held when each external invocation happens.
-/

/-- One observable step of an execution: taking or dropping the catalog
mutex, invoking the cancellation callback on a message, or delivering a
reply payload to a subscriber's message. -/
inductive CEvent where
  | lockEv : CEvent
  | unlockEv : CEvent
  | callbackEv : Message → CEvent
  | deliverEv : Message → String → CEvent
deriving DecidableEq

/-- Fold over a trace recording, for every callback or delivery event, the
lock state at the moment it runs. -/
def lockStateAtInvocations : List CEvent → Bool → List Bool
  | [], _ => []
  | CEvent.lockEv :: rest, _ => lockStateAtInvocations rest true
  | CEvent.unlockEv :: rest, _ => lockStateAtInvocations rest false
  | CEvent.callbackEv _ :: rest, held => held :: lockStateAtInvocations rest held
  | CEvent.deliverEv _ _ :: rest, held => held :: lockStateAtInvocations rest held

/-- The event trace of _CatalogRemoveToken: _SubscriptionAcquire locks and
unlocks; when the token resolved, the cancellation callback (if notify and a
hook is installed) runs next, then the index mutation section locks and
unlocks, then _SubscriptionRemove locks and unlocks again. -/
def removeTokenTrace (c : Catalog) (token : String) (notify : Bool) : List CEvent :=
  [CEvent.lockEv, CEvent.unlockEv] ++
  match lookupA c.token_map token with
  | none => []
  | some subs =>
      (if notify ∧ c.cancel_fn then [CEvent.callbackEv subs.message] else []) ++
      [CEvent.lockEv, CEvent.unlockEv, CEvent.lockEv, CEvent.unlockEv]

/-- The event trace of LSSubscriptionReply: the lock is taken, every
resolving token of the key's list is delivered to, and only then is the lock
dropped. -/
def replyTrace (c : Catalog) (key : String) (payload : String) : List CEvent :=
  [CEvent.lockEv] ++
  (match lookupA c.subscription_lists key with
   | none => []
   | some tokens =>
       tokens.filterMap (fun tok =>
         (lookupA c.token_map tok).map (fun subs =>
           CEvent.deliverEv subs.message payload))) ++
  [CEvent.unlockEv]

/-
Invariant checkers, as executable Boolean predicates over a catalog state.
-/

/-- Keys of an association list are pairwise distinct. -/
def nodupKeysCheck {α : Type} (l : List (String × α)) : Bool :=
  decide (keysOf l).Nodup

/-- Every subscription list is duplicate-free even up to the 50-character
comparison _SubListContains and _SubListRemove use. -/
def listsPrefix50DistinctCheck (c : Catalog) : Bool :=
  c.subscription_lists.all (fun p =>
    decide (p.2.Pairwise (fun a b => ¬ (strncmpEq50 a b = true))))

/-- Tokens of the token_map are pairwise distinguished by their first 50
characters. -/
def tokensPrefix50DistinctCheck (c : Catalog) : Bool :=
  decide ((keysOf c.token_map).Pairwise (fun a b => ¬ (strncmpEq50 a b = true)))

/-- Invariant I2, first direction: a token in some key's list resolves in
token_map to a subscription whose key array holds that key. -/
def I2aCheck (c : Catalog) : Bool :=
  c.subscription_lists.all (fun p =>
    p.2.all (fun tok =>
      match lookupA c.token_map tok with
      | none => false
      | some subs => g_char_ptr_array_contains subs.keys p.1))

/-- Invariant I2, second direction: every key in a subscription's key array
names a list that holds the subscription's token. -/
def I2bCheck (c : Catalog) : Bool :=
  c.token_map.all (fun q =>
    q.2.keys.all (fun key =>
      match lookupA c.subscription_lists key with
      | none => false
      | some l => decide (q.1 ∈ l)))

/-- Invariant I2: both directions of the bidirectional index consistency. -/
def I2Check (c : Catalog) : Bool := I2aCheck c && I2bCheck c

/-- Invariant I3: no key of subscription_lists carries an empty list. -/
def I3Check (c : Catalog) : Bool :=
  c.subscription_lists.all (fun p => decide (p.2 ≠ []))

/-- Structural well-formedness every reachable state enjoys: both hash-table
embeddings have duplicate-free key columns and every subscription list is
duplicate-free up to the 50-character comparison. -/
def WFCheck (c : Catalog) : Bool :=
  nodupKeysCheck c.token_map && nodupKeysCheck c.subscription_lists &&
    listsPrefix50DistinctCheck c

/-
Reachability.  A catalog state is reachable when it arises from the fresh
catalog by the exported operations; the Good parameter lets a theorem
restrict which _CatalogAdd calls (key, message, and whether the
subscription-creation call succeeds) are admitted.
-/

/-- Reachable catalog states, with an admission predicate on add calls.
Every mutation funnels through _CatalogAdd or _CatalogRemoveToken; the
composite entry points _CatalogHandleCancel and LSSubscriptionProcess, the
iterator-driven removal and the cancel-hook installation are included as
steps of their own. -/
inductive Reach (Good : Catalog → String → Message → Bool → Prop) : Catalog → Prop where
  | start : Reach Good emptyCatalog
  | setCancel (c : Catalog) (b : Bool) :
      Reach Good c → Reach Good { c with cancel_fn := b }
  | add (c : Catalog) (key : String) (m : Message) (ok : Bool) :
      Reach Good c → Good c key m ok → Reach Good (_CatalogAdd c key m ok).2
  | remove (c : Catalog) (token : String) (notify : Bool) :
      Reach Good c → Reach Good (_CatalogRemoveToken c token notify).2
  | cancel (c : Catalog) (m : Message) :
      Reach Good c → Reach Good (_CatalogHandleCancel c m).2
  | process (c : Catalog) (m : Message) (subscribed ok : Bool) :
      Reach Good c → Good c m.kind m ok →
      Reach Good (LSSubscriptionProcess c m subscribed ok).2.2
  | iterRemove (c : Catalog) (iter : LSSubscriptionIter) :
      Reach Good c → Reach Good (LSSubscriptionRemoveCurrent c iter)

/-- The unrestricted admission predicate: every add call is a step. -/
def GoodAny : Catalog → String → Message → Bool → Prop := fun _ _ _ _ => True

/-- Admission predicate for the amended I2 claim: an added message's token
must not collide, on the first 50 characters, with a different token already
indexed. -/
def GoodFresh50 : Catalog → String → Message → Bool → Prop := fun c _ m _ =>
  ∀ t ∈ keysOf c.token_map,
    strncmpEq50 t m.uniqueToken = true → t = m.uniqueToken

/-- Admission predicate for the amended I3 claim: only adds whose
subscription creation succeeds. -/
def GoodOk : Catalog → String → Message → Bool → Prop := fun _ _ _ ok => ok = true

/-
Lemmas about the association-list embedding of GHashTable.
-/

theorem lookupA_insertA_self {α : Type} (l : List (String × α)) (k : String) (v : α) :
    lookupA (insertA l k v) k = some v := by
  induction l with
  | nil => simp [insertA, lookupA]
  | cons p rest ih =>
      obtain ⟨a, w⟩ := p
      by_cases ha : a = k
      · simp [insertA, ha, lookupA]
      · simp [insertA, ha, lookupA, ih]

theorem lookupA_insertA_ne {α : Type} (l : List (String × α)) (k k' : String) (v : α)
    (h : k' ≠ k) : lookupA (insertA l k v) k' = lookupA l k' := by
  induction l with
  | nil => simp [insertA, lookupA, Ne.symm h]
  | cons p rest ih =>
      obtain ⟨a, w⟩ := p
      by_cases ha : a = k
      · subst ha
        simp [insertA, lookupA, Ne.symm h]
      · simp [insertA, ha, lookupA, ih]

theorem lookupA_eraseA_ne {α : Type} (l : List (String × α)) (k k' : String)
    (h : k' ≠ k) : lookupA (eraseA l k) k' = lookupA l k' := by
  induction l with
  | nil => simp [eraseA]
  | cons p rest ih =>
      obtain ⟨a, w⟩ := p
      by_cases ha : a = k
      · subst ha
        simp [eraseA, lookupA, Ne.symm h]
      · simp [eraseA, ha, lookupA, ih]

theorem eraseA_insertA {α : Type} (l : List (String × α)) (k : String) (v : α) :
    eraseA (insertA l k v) k = eraseA l k := by
  induction l with
  | nil => simp [insertA, eraseA]
  | cons p rest ih =>
      obtain ⟨a, w⟩ := p
      by_cases ha : a = k
      · simp [insertA, ha, eraseA]
      · simp [insertA, ha, eraseA, ih]

theorem insertA_lookupA {α : Type} (l : List (String × α)) (k : String) (v : α)
    (h : lookupA l k = some v) : insertA l k v = l := by
  induction l with
  | nil => simp [lookupA] at h
  | cons p rest ih =>
      obtain ⟨a, w⟩ := p
      by_cases ha : a = k
      · subst ha
        simp [lookupA] at h
        simp [insertA, h]
      · simp [lookupA, ha] at h
        simp [insertA, ha, ih h]

theorem insertA_insertA {α : Type} (l : List (String × α)) (k : String) (v w : α) :
    insertA (insertA l k v) k w = insertA l k w := by
  induction l with
  | nil => simp [insertA]
  | cons p rest ih =>
      obtain ⟨a, u⟩ := p
      by_cases ha : a = k
      · simp [insertA, ha]
      · simp [insertA, ha, ih]

theorem lookupA_none_iff {α : Type} (l : List (String × α)) (k : String) :
    lookupA l k = none ↔ k ∉ keysOf l := by
  induction l with
  | nil => simp [lookupA, keysOf]
  | cons p rest ih =>
      obtain ⟨a, w⟩ := p
      rw [show keysOf ((a, w) :: rest) = a :: keysOf rest from rfl, List.mem_cons]
      by_cases ha : a = k
      · subst ha
        simp [lookupA]
      · rw [lookupA]
        simp only [if_neg ha]
        constructor
        · intro h hk
          rcases hk with hk | hk
          · exact ha hk.symm
          · exact (ih.mp h) hk
        · intro h
          exact ih.mpr (fun hk => h (Or.inr hk))

theorem lookupA_mem {α : Type} (l : List (String × α)) (k : String) (v : α)
    (h : lookupA l k = some v) : (k, v) ∈ l := by
  induction l with
  | nil => simp [lookupA] at h
  | cons p rest ih =>
      obtain ⟨a, w⟩ := p
      by_cases ha : a = k
      · subst ha
        simp [lookupA] at h
        subst h
        exact List.mem_cons_self _ _
      · simp [lookupA, ha] at h
        exact List.mem_cons_of_mem _ (ih h)

theorem mem_keysOf_of_lookupA {α : Type} (l : List (String × α)) (k : String) (v : α)
    (h : lookupA l k = some v) : k ∈ keysOf l :=
  List.mem_map_of_mem Prod.fst (lookupA_mem l k v h)

theorem eraseA_of_lookupA_none {α : Type} (l : List (String × α)) (k : String)
    (h : lookupA l k = none) : eraseA l k = l := by
  induction l with
  | nil => simp [eraseA]
  | cons p rest ih =>
      obtain ⟨a, w⟩ := p
      by_cases ha : a = k
      · simp [lookupA, ha] at h
      · simp [lookupA, ha] at h
        simp [eraseA, ha, ih h]

theorem lookupA_eraseA_self {α : Type} (l : List (String × α)) (k : String)
    (h : (keysOf l).Nodup) : lookupA (eraseA l k) k = none := by
  induction l with
  | nil => simp [eraseA, lookupA]
  | cons p rest ih =>
      obtain ⟨a, w⟩ := p
      rw [show keysOf ((a, w) :: rest) = a :: keysOf rest from rfl] at h
      rcases List.nodup_cons.mp h with ⟨hna, hnd⟩
      by_cases ha : a = k
      · subst ha
        simp only [eraseA, if_pos rfl]
        exact (lookupA_none_iff rest a).mpr hna
      · simp only [eraseA, if_neg ha, lookupA, if_neg ha]
        exact ih hnd

theorem mem_insertA {α : Type} (l : List (String × α)) (k : String) (v : α)
    (p : String × α) (h : p ∈ insertA l k v) : p ∈ l ∨ p = (k, v) := by
  induction l with
  | nil =>
      simp [insertA] at h
      right
      exact h
  | cons q rest ih =>
      obtain ⟨a, w⟩ := q
      by_cases ha : a = k
      · simp only [insertA, if_pos ha] at h
        rcases List.mem_cons.mp h with h | h
        · right; exact h
        · left; exact List.mem_cons_of_mem _ h
      · simp only [insertA, if_neg ha] at h
        rcases List.mem_cons.mp h with h | h
        · left
          rw [h]
          exact List.mem_cons_self _ _
        · rcases ih h with hh | hh
          · left; exact List.mem_cons_of_mem _ hh
          · right; exact hh

theorem eraseA_sublist {α : Type} (l : List (String × α)) (k : String) :
    (eraseA l k).Sublist l := by
  induction l with
  | nil => simp [eraseA]
  | cons p rest ih =>
      obtain ⟨a, w⟩ := p
      by_cases ha : a = k
      · simp only [eraseA, if_pos ha]
        exact List.sublist_cons_self _ _
      · simp only [eraseA, if_neg ha]
        exact ih.cons₂ _

theorem keysOf_insertA_of_mem {α : Type} (l : List (String × α)) (k : String) (v : α)
    (h : k ∈ keysOf l) : keysOf (insertA l k v) = keysOf l := by
  induction l with
  | nil => simp [keysOf] at h
  | cons p rest ih =>
      obtain ⟨a, w⟩ := p
      by_cases ha : a = k
      · simp [insertA, ha, keysOf]
      · simp only [keysOf, List.map_cons, List.mem_cons] at h
        rcases h with h | h
        · exact absurd h.symm ha
        · simp [insertA, ha, keysOf]
          exact ih h

theorem keysOf_insertA_of_not_mem {α : Type} (l : List (String × α)) (k : String) (v : α)
    (h : k ∉ keysOf l) : keysOf (insertA l k v) = keysOf l ++ [k] := by
  induction l with
  | nil => simp [insertA, keysOf]
  | cons p rest ih =>
      obtain ⟨a, w⟩ := p
      simp only [keysOf, List.map_cons, List.mem_cons] at h
      push_neg at h
      have ha : a ≠ k := fun hh => h.1 hh.symm
      simp only [insertA, if_neg ha, keysOf, List.map_cons, List.cons_append]
      congr 1
      exact ih h.2

theorem nodup_keysOf_insertA {α : Type} (l : List (String × α)) (k : String) (v : α)
    (h : (keysOf l).Nodup) : (keysOf (insertA l k v)).Nodup := by
  by_cases hm : k ∈ keysOf l
  · rw [keysOf_insertA_of_mem l k v hm]
    exact h
  · rw [keysOf_insertA_of_not_mem l k v hm]
    simp [List.nodup_append, h, hm]

theorem nodup_keysOf_eraseA {α : Type} (l : List (String × α)) (k : String)
    (h : (keysOf l).Nodup) : (keysOf (eraseA l k)).Nodup :=
  h.sublist ((eraseA_sublist l k).map Prod.fst)

theorem count_keysOf_insertA_of_mem {α : Type} (l : List (String × α)) (k : String) (v : α)
    (h : k ∈ keysOf l) : (keysOf (insertA l k v)).count k = (keysOf l).count k := by
  rw [keysOf_insertA_of_mem l k v h]

theorem count_keysOf_insertA_of_not_mem {α : Type} (l : List (String × α)) (k : String) (v : α)
    (h : k ∉ keysOf l) : (keysOf (insertA l k v)).count k = (keysOf l).count k + 1 := by
  rw [keysOf_insertA_of_not_mem l k v h]
  simp [List.count_append]

/-
Lemmas about _SubList operations and the 50-character comparison.
-/

theorem strncmpEq50_iff (a b : String) :
    strncmpEq50 a b = true ↔ a.data.take 50 = b.data.take 50 := by
  simp [strncmpEq50]

theorem strncmpEq50_refl (a : String) : strncmpEq50 a a = true := by
  simp [strncmpEq50]

theorem strncmpEq50_comm (a b : String) : strncmpEq50 a b = strncmpEq50 b a := by
  simp [strncmpEq50, eq_comm]

theorem _SubListContains_iff (l : List String) (d : String) :
    _SubListContains l d = true ↔ ∃ t ∈ l, strncmpEq50 t d = true := by
  simp [_SubListContains, List.any_eq_true]

theorem _SubListContains_eq_false (l : List String) (d : String) :
    _SubListContains l d = false ↔ ∀ t ∈ l, strncmpEq50 t d = false := by
  simp [_SubListContains, List.any_eq_false]

theorem _SubListRemove_of_not_contains (l : List String) (d : String)
    (h : _SubListContains l d = false) : _SubListRemove l d = l := by
  induction l with
  | nil => simp [_SubListRemove]
  | cons tok rest ih =>
      rw [_SubListContains_eq_false] at h
      have htok := h tok (List.mem_cons_self _ _)
      rw [_SubListRemove, if_neg (by simp [htok])]
      rw [ih (by rw [_SubListContains_eq_false]; exact fun t ht => h t (List.mem_cons_of_mem _ ht))]

theorem _SubListRemove_sublist (l : List String) (d : String) :
    (_SubListRemove l d).Sublist l := by
  induction l with
  | nil => simp [_SubListRemove]
  | cons tok rest ih =>
      by_cases h : strncmpEq50 tok d = true
      · rw [_SubListRemove, if_pos h]
        exact List.sublist_cons_self _ _
      · rw [_SubListRemove, if_neg h]
        exact ih.cons₂ _

theorem mem_of_mem_SubListRemove (l : List String) (d t : String)
    (h : t ∈ _SubListRemove l d) : t ∈ l :=
  (_SubListRemove_sublist l d).mem h

theorem mem_SubListRemove_of_no_match (l : List String) (d t : String)
    (ht : t ∈ l) (hne : strncmpEq50 t d = false) : t ∈ _SubListRemove l d := by
  induction l with
  | nil => simp at ht
  | cons tok rest ih =>
      by_cases h : strncmpEq50 tok d = true
      · rw [_SubListRemove, if_pos h]
        rcases List.mem_cons.mp ht with rfl | ht'
        · rw [h] at hne; exact absurd hne (by simp)
        · exact ht'
      · rw [_SubListRemove, if_neg h]
        rcases List.mem_cons.mp ht with rfl | ht'
        · exact List.mem_cons_self _ _
        · exact List.mem_cons_of_mem _ (ih ht')

theorem no_match_of_mem_SubListRemove (l : List String) (d t : String)
    (hpd : l.Pairwise (fun a b => ¬ strncmpEq50 a b = true))
    (ht : t ∈ _SubListRemove l d) : strncmpEq50 t d = false := by
  induction l with
  | nil => simp [_SubListRemove] at ht
  | cons tok rest ih =>
      rcases List.pairwise_cons.mp hpd with ⟨htok, hrest⟩
      by_cases h : strncmpEq50 tok d = true
      · rw [_SubListRemove, if_pos h] at ht
        by_contra hcon
        rw [Bool.not_eq_false] at hcon
        have h1 : tok.data.take 50 = d.data.take 50 := (strncmpEq50_iff _ _).mp h
        have h2 : t.data.take 50 = d.data.take 50 := (strncmpEq50_iff _ _).mp hcon
        exact htok t ht ((strncmpEq50_iff _ _).mpr (h1.trans h2.symm))
      · rw [_SubListRemove, if_neg h] at ht
        rcases List.mem_cons.mp ht with rfl | ht'
        · simp only [Bool.not_eq_true] at h
          exact h
        · exact ih hrest ht'

theorem pairwise_SubListRemove (l : List String) (d : String)
    (hpd : l.Pairwise (fun a b => ¬ strncmpEq50 a b = true)) :
    (_SubListRemove l d).Pairwise (fun a b => ¬ strncmpEq50 a b = true) :=
  hpd.sublist (_SubListRemove_sublist l d)

theorem _SubListRemove_first_match (l₁ l₂ : List String) (t d : String)
    (h₁ : ∀ u ∈ l₁, strncmpEq50 u d = false) (ht : strncmpEq50 t d = true) :
    _SubListRemove (l₁ ++ t :: l₂) d = l₁ ++ l₂ := by
  induction l₁ with
  | nil => simp [_SubListRemove, ht]
  | cons u rest ih =>
      have hu := h₁ u (List.mem_cons_self _ _)
      rw [List.cons_append, _SubListRemove, if_neg (by simp [hu]), List.cons_append]
      rw [ih (fun x hx => h₁ x (List.mem_cons_of_mem _ hx))]

theorem _SubListContains_append_self (l : List String) (d : String) :
    _SubListContains (l ++ [d]) d = true := by
  rw [_SubListContains_iff]
  exact ⟨d, by simp, strncmpEq50_refl d⟩

theorem g_char_ptr_array_contains_iff (l : List String) (d : String) :
    g_char_ptr_array_contains l d = true ↔ d ∈ l := by
  simp [g_char_ptr_array_contains, List.any_eq_true]

/-
Lemmas about the removal loop of _CatalogRemoveToken.
-/

/-- Pairwise distinctness of a token list under the 50-character
comparison. -/
def PairwiseDistinct50 (l : List String) : Prop :=
  l.Pairwise (fun a b => ¬ strncmpEq50 a b = true)

/-- Every entry of the key-to-list index binds a list that is pairwise
distinct under the 50-character comparison. -/
def ListsPD (lists : List (String × List String)) : Prop :=
  ∀ p ∈ lists, PairwiseDistinct50 p.2

theorem listsPD_lookup (lists : List (String × List String)) (key : String)
    (l : List String) (h : ListsPD lists) (hl : lookupA lists key = some l) :
    PairwiseDistinct50 l :=
  h (key, l) (lookupA_mem lists key l hl)

theorem step_lookup_ne (token : String) (lists : List (String × List String))
    (key key' : String) (h : key' ≠ key) :
    lookupA (_CatalogRemoveKeyStep token lists key) key' = lookupA lists key' := by
  rw [_CatalogRemoveKeyStep]
  cases hl : lookupA lists key with
  | none => exact lookupA_eraseA_ne lists key key' h
  | some l =>
      simp only []
      by_cases hz : _SubListLen (_SubListRemove l token) = 0
      · rw [if_pos hz]
        exact lookupA_eraseA_ne lists key key' h
      · rw [if_neg hz]
        exact lookupA_insertA_ne lists key key' _ h

theorem step_nodupKeys (token : String) (lists : List (String × List String))
    (key : String) (h : (keysOf lists).Nodup) :
    (keysOf (_CatalogRemoveKeyStep token lists key)).Nodup := by
  rw [_CatalogRemoveKeyStep]
  cases hl : lookupA lists key with
  | none => exact nodup_keysOf_eraseA lists key h
  | some l =>
      simp only []
      by_cases hz : _SubListLen (_SubListRemove l token) = 0
      · rw [if_pos hz]
        exact nodup_keysOf_eraseA lists key h
      · rw [if_neg hz]
        exact nodup_keysOf_insertA lists key _ h

theorem step_PD (token : String) (lists : List (String × List String))
    (key : String) (h : ListsPD lists) :
    ListsPD (_CatalogRemoveKeyStep token lists key) := by
  intro p hp
  rw [_CatalogRemoveKeyStep] at hp
  cases hl : lookupA lists key with
  | none =>
      rw [hl] at hp
      exact h p ((eraseA_sublist lists key).mem hp)
  | some l =>
      rw [hl] at hp
      simp only [] at hp
      by_cases hz : _SubListLen (_SubListRemove l token) = 0
      · rw [if_pos hz] at hp
        exact h p ((eraseA_sublist lists key).mem hp)
      · rw [if_neg hz] at hp
        rcases mem_insertA lists key _ p hp with hmem | rfl
        · exact h p hmem
        · exact pairwise_SubListRemove l token (listsPD_lookup lists key l h hl)

theorem step_entries (token : String) (lists : List (String × List String))
    (key : String) (p : String × List String)
    (hp : p ∈ _CatalogRemoveKeyStep token lists key) : p ∈ lists ∨ p.2 ≠ [] := by
  rw [_CatalogRemoveKeyStep] at hp
  cases hl : lookupA lists key with
  | none =>
      rw [hl] at hp
      exact Or.inl ((eraseA_sublist lists key).mem hp)
  | some l =>
      rw [hl] at hp
      simp only [] at hp
      by_cases hz : _SubListLen (_SubListRemove l token) = 0
      · rw [if_pos hz] at hp
        exact Or.inl ((eraseA_sublist lists key).mem hp)
      · rw [if_neg hz] at hp
        rcases mem_insertA lists key _ p hp with hmem | rfl
        · exact Or.inl hmem
        · right
          intro hnil
          have hnil2 : _SubListRemove l token = [] := hnil
          exact hz (by rw [_SubListLen, hnil2]; rfl)

theorem step_lookup_sub (token : String) (lists : List (String × List String))
    (key key' : String) (l' : List String) (hnd : (keysOf lists).Nodup)
    (h : lookupA (_CatalogRemoveKeyStep token lists key) key' = some l') :
    ∃ l, lookupA lists key' = some l ∧ l'.Sublist l := by
  by_cases hk : key' = key
  · subst hk
    rw [_CatalogRemoveKeyStep] at h
    cases hl : lookupA lists key' with
    | none =>
        rw [hl, eraseA_of_lookupA_none lists key' hl] at h
        rw [h] at hl
        exact absurd hl (by simp)
    | some l =>
        rw [hl] at h
        simp only [] at h
        by_cases hz : _SubListLen (_SubListRemove l token) = 0
        · rw [if_pos hz, lookupA_eraseA_self lists key' hnd] at h
          exact absurd h (by simp)
        · rw [if_neg hz, lookupA_insertA_self] at h
          cases h
          exact ⟨l, rfl, _SubListRemove_sublist l token⟩
  · rw [step_lookup_ne token lists key key' hk] at h
    exact ⟨l', h, List.Sublist.refl l'⟩

theorem removeKeys_lookup_not_mem (token : String) (ks : List String) :
    ∀ lists key, key ∉ ks →
      lookupA (_CatalogRemoveKeys token ks lists) key = lookupA lists key := by
  induction ks with
  | nil => intro lists key _; rfl
  | cons k' rest ih =>
      intro lists key h
      have hk : key ≠ k' := fun hh => h (hh ▸ List.mem_cons_self _ _)
      have hr : key ∉ rest := fun hh => h (List.mem_cons_of_mem _ hh)
      rw [_CatalogRemoveKeys, ih _ key hr, step_lookup_ne token lists k' key hk]

theorem removeKeys_lookup_none (token : String) (ks : List String) :
    ∀ lists key, lookupA lists key = none →
      lookupA (_CatalogRemoveKeys token ks lists) key = none := by
  induction ks with
  | nil => intro lists key h; exact h
  | cons k' rest ih =>
      intro lists key h
      rw [_CatalogRemoveKeys]
      apply ih
      by_cases hk : key = k'
      · subst hk
        rw [_CatalogRemoveKeyStep, h, eraseA_of_lookupA_none lists key h]
        exact h
      · rw [step_lookup_ne token lists k' key hk]
        exact h

theorem removeKeys_nodupKeys (token : String) (ks : List String) :
    ∀ lists, (keysOf lists).Nodup →
      (keysOf (_CatalogRemoveKeys token ks lists)).Nodup := by
  induction ks with
  | nil => intro lists h; exact h
  | cons k' rest ih =>
      intro lists h
      rw [_CatalogRemoveKeys]
      exact ih _ (step_nodupKeys token lists k' h)

theorem removeKeys_PD (token : String) (ks : List String) :
    ∀ lists, ListsPD lists → ListsPD (_CatalogRemoveKeys token ks lists) := by
  induction ks with
  | nil => intro lists h; exact h
  | cons k' rest ih =>
      intro lists h
      rw [_CatalogRemoveKeys]
      exact ih _ (step_PD token lists k' h)

theorem removeKeys_entries (token : String) (ks : List String) :
    ∀ lists p, p ∈ _CatalogRemoveKeys token ks lists → p ∈ lists ∨ p.2 ≠ [] := by
  induction ks with
  | nil => intro lists p h; exact Or.inl h
  | cons k' rest ih =>
      intro lists p h
      rw [_CatalogRemoveKeys] at h
      rcases ih _ p h with hmem | hne
      · exact step_entries token lists k' p hmem
      · exact Or.inr hne

theorem removeKeys_lookup_sub (token : String) (ks : List String) :
    ∀ lists key l', (keysOf lists).Nodup →
      lookupA (_CatalogRemoveKeys token ks lists) key = some l' →
      ∃ l, lookupA lists key = some l ∧ l'.Sublist l := by
  induction ks with
  | nil => intro lists key l' _ h; exact ⟨l', h, List.Sublist.refl l'⟩
  | cons k' rest ih =>
      intro lists key l' hnd h
      rw [_CatalogRemoveKeys] at h
      rcases ih _ key l' (step_nodupKeys token lists k' hnd) h with ⟨lmid, hmid, hsub⟩
      rcases step_lookup_sub token lists k' key lmid hnd hmid with ⟨l, hl, hsub2⟩
      exact ⟨l, hl, hsub.trans hsub2⟩

theorem removeKeys_good (token : String) (ks : List String) :
    ∀ lists key, (keysOf lists).Nodup → ListsPD lists →
      (key ∈ ks ∨
        (∀ l, lookupA lists key = some l →
          (∀ t ∈ l, strncmpEq50 t token = false) ∧ l ≠ [])) →
      ∀ l', lookupA (_CatalogRemoveKeys token ks lists) key = some l' →
        (∀ t ∈ l', strncmpEq50 t token = false) ∧ l' ≠ [] := by
  induction ks with
  | nil =>
      intro lists key _ _ hgood l' h
      rcases hgood with hmem | hgood
      · simp at hmem
      · exact hgood l' h
  | cons k' rest ih =>
      intro lists key hnd hpd hgood l' h
      rw [_CatalogRemoveKeys] at h
      apply ih _ key (step_nodupKeys token lists k' hnd) (step_PD token lists k' hpd) _ l' h
      by_cases hkr : key ∈ rest
      · exact Or.inl hkr
      · right
        intro l hl
        have hcover : key = k' ∨
            (∀ l₀, lookupA lists key = some l₀ →
              (∀ t ∈ l₀, strncmpEq50 t token = false) ∧ l₀ ≠ []) := by
          rcases hgood with hmem | hgood
          · rcases List.mem_cons.mp hmem with hm | hm
            · exact Or.inl hm
            · exact absurd hm hkr
          · exact Or.inr hgood
        rcases hcover with rfl | hgood2
        · rw [_CatalogRemoveKeyStep] at hl
          cases hl0 : lookupA lists key with
          | none =>
              rw [hl0, eraseA_of_lookupA_none lists key hl0, hl0] at hl
              exact absurd hl (by simp)
          | some l₀ =>
              rw [hl0] at hl
              simp only [] at hl
              by_cases hz : _SubListLen (_SubListRemove l₀ token) = 0
              · rw [if_pos hz, lookupA_eraseA_self lists key hnd] at hl
                exact absurd hl (by simp)
              · rw [if_neg hz, lookupA_insertA_self] at hl
                cases hl
                constructor
                · exact fun t ht =>
                    no_match_of_mem_SubListRemove l₀ token t
                      (listsPD_lookup lists key l₀ hpd hl0) ht
                · intro hnil
                  exact hz (by rw [_SubListLen, hnil]; rfl)
        · by_cases hkk : key = k'
          · subst hkk
            rw [_CatalogRemoveKeyStep] at hl
            cases hl0 : lookupA lists key with
            | none =>
                rw [hl0, eraseA_of_lookupA_none lists key hl0, hl0] at hl
                exact absurd hl (by simp)
            | some l₀ =>
                rw [hl0] at hl
                simp only [] at hl
                rcases hgood2 l₀ hl0 with ⟨hnm, hnn⟩
                have hrm : _SubListRemove l₀ token = l₀ :=
                  _SubListRemove_of_not_contains l₀ token
                    ((_SubListContains_eq_false l₀ token).mpr hnm)
                by_cases hz : _SubListLen (_SubListRemove l₀ token) = 0
                · exfalso
                  rw [hrm] at hz
                  exact hnn (List.length_eq_zero.mp hz)
                · rw [if_neg hz, lookupA_insertA_self] at hl
                  cases hl
                  rw [hrm]
                  exact ⟨hnm, hnn⟩
          · rw [step_lookup_ne token lists k' key hkk] at hl
            exact hgood2 l hl

theorem removeKeys_processed (token : String) (ks : List String)
    (lists : List (String × List String)) (key : String)
    (hnd : (keysOf lists).Nodup) (hpd : ListsPD lists) (hmem : key ∈ ks)
    (l' : List String)
    (h : lookupA (_CatalogRemoveKeys token ks lists) key = some l') :
    (∀ t ∈ l', strncmpEq50 t token = false) ∧ l' ≠ [] :=
  removeKeys_good token ks lists key hnd hpd (Or.inl hmem) l' h

theorem removeKeys_emptied (token : String) (ks : List String) :
    ∀ lists key l, (keysOf lists).Nodup → key ∈ ks →
      lookupA lists key = some l → _SubListRemove l token = [] →
      lookupA (_CatalogRemoveKeys token ks lists) key = none := by
  induction ks with
  | nil => intro lists key l _ hmem _ _; simp at hmem
  | cons k' rest ih =>
      intro lists key l hnd hmem hl hrm
      rw [_CatalogRemoveKeys]
      by_cases hk : key = k'
      · subst hk
        apply removeKeys_lookup_none
        rw [_CatalogRemoveKeyStep, hl]
        simp only []
        rw [if_pos (by rw [_SubListLen, hrm]; rfl)]
        exact lookupA_eraseA_self lists key hnd
      · rcases List.mem_cons.mp hmem with hm | hm
        · exact absurd hm hk
        · exact ih _ key l (step_nodupKeys token lists k' hnd) hm
            (by rw [step_lookup_ne token lists k' key hk]; exact hl) hrm

theorem removeKeys_survives (token : String) (ks : List String) :
    ∀ lists key l t, lookupA lists key = some l → t ∈ l →
      strncmpEq50 t token = false →
      ∃ l', lookupA (_CatalogRemoveKeys token ks lists) key = some l' ∧ t ∈ l' := by
  induction ks with
  | nil => intro lists key l t hl ht _; exact ⟨l, hl, ht⟩
  | cons k' rest ih =>
      intro lists key l t hl ht hnm
      rw [_CatalogRemoveKeys]
      by_cases hk : key = k'
      · subst hk
        have ht2 : t ∈ _SubListRemove l token := mem_SubListRemove_of_no_match l token t ht hnm
        have hz : ¬ _SubListLen (_SubListRemove l token) = 0 := by
          intro hz
          rw [_SubListLen, List.length_eq_zero] at hz
          rw [hz] at ht2
          simp at ht2
        apply ih _ key (_SubListRemove l token) t _ ht2 hnm
        rw [_CatalogRemoveKeyStep, hl]
        simp only []
        rw [if_neg hz]
        exact lookupA_insertA_self lists key _
      · exact ih _ key l t (by rw [step_lookup_ne token lists k' key hk]; exact hl) ht hnm

/-
Concrete strings exhibiting a collision of the 50-character comparison:
two distinct 51-character identifiers sharing their first 50 characters.
-/

/-- A 51-character identifier: fifty letters a followed by the digit 1. -/
def colTok1 : String := "aaaaaaaaaaaaaaaaaaaaaaaaaaaaaaaaaaaaaaaaaaaaaaaaaa1"

/-- A 51-character identifier: fifty letters a followed by the digit 2. -/
def colTok2 : String := "aaaaaaaaaaaaaaaaaaaaaaaaaaaaaaaaaaaaaaaaaaaaaaaaaa2"

/-- C10: SubscriberList membership and removal compare identifiers only on
their first 50 characters: two identifiers agreeing on their first 50
characters are treated as the same element by _SubListContains and
_SubListRemove, _SubListContains holds exactly when some entry agrees with
the probe on the first 50 characters, removal deletes the first entry
matching that 50-character prefix, whereas g_char_ptr_array_contains (the
Subscription key-set membership check) is full string equality. -/
theorem subList_50_char_semantics (l : List String) (a b : String)
    (h : a.data.take 50 = b.data.take 50) :
    _SubListContains l a = _SubListContains l b ∧
    _SubListRemove l a = _SubListRemove l b ∧
    (_SubListContains l a = true ↔ ∃ t ∈ l, t.data.take 50 = a.data.take 50) ∧
    (g_char_ptr_array_contains l a = true ↔ a ∈ l) ∧
    (∀ l₁ t l₂, l = l₁ ++ t :: l₂ →
       (∀ u ∈ l₁, u.data.take 50 ≠ a.data.take 50) →
       t.data.take 50 = a.data.take 50 → _SubListRemove l a = l₁ ++ l₂) := by
  refine ⟨?_, ?_, ?_, ?_, ?_⟩
  · simp [_SubListContains, strncmpEq50, h]
  · induction l with
    | nil => rfl
    | cons tok rest ih =>
        rw [_SubListRemove, _SubListRemove]
        by_cases htok : strncmpEq50 tok a = true
    
    
        · rw [if_pos htok, if_pos (by rw [strncmpEq50_iff] at htok ⊢; rw [← h]; exact htok)]
        · rw [if_neg htok,
            if_neg (by
              rw [strncmpEq50_iff] at htok ⊢
              rw [← h]
              exact htok), ih]
  · rw [_SubListContains_iff]
    constructor
    · rintro ⟨t, ht, hm⟩
      exact ⟨t, ht, (strncmpEq50_iff t a).mp hm⟩
    · rintro ⟨t, ht, hm⟩
      exact ⟨t, ht, (strncmpEq50_iff t a).mpr hm⟩
  · exact g_char_ptr_array_contains_iff l a
  · intro l₁ t l₂ hsplit h₁ ht
    rw [hsplit]
    exact _SubListRemove_first_match l₁ l₂ t a
      (fun u hu => by
        rw [Bool.eq_false_iff]
        intro hc
        exact h₁ u hu ((strncmpEq50_iff u a).mp hc))
      ((strncmpEq50_iff t a).mpr ht)

/-- Witness for C10 at the concrete collision pair: the removal and the
membership check identify the two distinct 51-character identifiers. -/
theorem subList_50_char_semantics_witness :
    colTok2.data.take 50 = colTok1.data.take 50 ∧
    _SubListContains [colTok1] colTok2 = _SubListContains [colTok1] colTok1 ∧
    _SubListRemove [colTok1] colTok2 = _SubListRemove [colTok1] colTok1 :=
  ⟨by decide,
   (subList_50_char_semantics [colTok1] colTok2 colTok1 (by decide)).1,
   (subList_50_char_semantics [colTok1] colTok2 colTok1 (by decide)).2.1⟩

/-- C5: _CatalogHandleCancel parses a payload of the form with an integer
token field, rebuilds the identifier as sender.token and removes it with
notify set; an unparsable payload or a missing token field fails with the
catalog unchanged; a well-formed payload succeeds even when the identifier
is absent from the catalog, leaving the state unchanged in that case. -/
theorem handleCancel_spec (c : Catalog) (msg : Message) :
    (msg.payloadParse = none → _CatalogHandleCancel c msg = (false, c)) ∧
    (∀ obj, msg.payloadParse = some obj →
       json_object_object_get_ex obj "token" = none →
       _CatalogHandleCancel c msg = (false, c)) ∧
    (∀ obj v, msg.payloadParse = some obj →
       json_object_object_get_ex obj "token" = some v →
       _CatalogHandleCancel c msg =
         (true,
          (_CatalogRemoveToken c
            (msg.sender ++ "." ++ toString (json_object_get_int v)) true).2)) ∧
    (∀ obj v, msg.payloadParse = some obj →
       json_object_object_get_ex obj "token" = some v →
       lookupA c.token_map
         (msg.sender ++ "." ++ toString (json_object_get_int v)) = none →
       _CatalogHandleCancel c msg = (true, c)) := by
  refine ⟨?_, ?_, ?_, ?_⟩
  · intro h
    rw [_CatalogHandleCancel, h]
  · intro obj h ht
    rw [_CatalogHandleCancel, h]
    simp only [ht]
  · intro obj v h ht
    rw [_CatalogHandleCancel, h]
    simp only [ht]
  · intro obj v h ht habs
    rw [_CatalogHandleCancel, h]
    simp only [ht]
    rw [_CatalogRemoveToken, _SubscriptionAcquire, habs]

/-- Witness for C5: a cancel message with token 7 from com.example.app on
the empty catalog parses, targets identifier com.example.app.7, and is a
silent no-op since the identifier is absent. -/
theorem handleCancel_spec_witness :
    ({ uniqueToken := "com.example.app.7", sender := "com.example.app",
       senderServiceName := "com.example.app", payload := "\x7b\"token\": 7\x7d",
       payloadParse := some [("token", JValue.jint 7)],
       kind := "/cat/m" } : Message).payloadParse =
        some [("token", JValue.jint 7)] ∧
    json_object_object_get_ex [("token", JValue.jint 7)] "token" =
        some (JValue.jint 7) ∧
    lookupA emptyCatalog.token_map "com.example.app.7" = none ∧
    _CatalogHandleCancel emptyCatalog
      { uniqueToken := "com.example.app.7", sender := "com.example.app",
        senderServiceName := "com.example.app", payload := "\x7b\"token\": 7\x7d",
        payloadParse := some [("token", JValue.jint 7)],
        kind := "/cat/m" } = (true, emptyCatalog) :=
  ⟨by decide, by decide, by decide,
   (handleCancel_spec emptyCatalog _).2.2.2 [("token", JValue.jint 7)]
     (JValue.jint 7) (by decide) (by decide) (by decide)⟩

/-- C9: LSSubscriptionProcess adds the message under the kind-derived
default key exactly when the subscribe field is present and coerces to
true, and then reports subscribed exactly when that add succeeded; a
missing subscribe field succeeds with subscribed false and the catalog
unchanged; an unparsable payload fails with the subscribed flag unchanged
and the catalog unchanged. -/
theorem process_spec (c : Catalog) (m : Message) (subscribed ok : Bool) :
    (m.payloadParse = none →
       LSSubscriptionProcess c m subscribed ok = (false, subscribed, c)) ∧
    (∀ obj, m.payloadParse = some obj →
       json_object_object_get_ex obj "subscribe" = none →
       LSSubscriptionProcess c m subscribed ok = (true, false, c)) ∧
    (∀ obj v, m.payloadParse = some obj →
       json_object_object_get_ex obj "subscribe" = some v →
       json_object_get_boolean v = true →
       LSSubscriptionProcess c m subscribed ok =
         ((_CatalogAdd c m.kind m ok).1, (_CatalogAdd c m.kind m ok).1,
          (_CatalogAdd c m.kind m ok).2)) ∧
    (∀ obj v, m.payloadParse = some obj →
       json_object_object_get_ex obj "subscribe" = some v →
       json_object_get_boolean v = false →
       LSSubscriptionProcess c m subscribed ok = (true, false, c)) := by
  refine ⟨?_, ?_, ?_, ?_⟩
  · intro h
    rw [LSSubscriptionProcess, h]
  · intro obj h hs
    rw [LSSubscriptionProcess, h]
    simp only [hs]
  · intro obj v h hs hb
    rw [LSSubscriptionProcess, h]
    simp only [hs, hb, if_true]
  · intro obj v h hs hb
    rw [LSSubscriptionProcess, h]
    simp only [hs, hb]
    rw [if_neg (by simp)]

/-- Witness for C9: a subscribe:true payload on the empty catalog adds the
message under its kind key and reports subscribed. -/
theorem process_spec_witness :
    ({ uniqueToken := "c.x.1", sender := "c.x",
       senderServiceName := "com.x", payload := "\x7b\"subscribe\": true\x7d",
       payloadParse := some [("subscribe", JValue.jbool true)],
       kind := "/cat/m" } : Message).payloadParse =
        some [("subscribe", JValue.jbool true)] ∧
    json_object_object_get_ex [("subscribe", JValue.jbool true)] "subscribe" =
        some (JValue.jbool true) ∧
    json_object_get_boolean (JValue.jbool true) = true ∧
    LSSubscriptionProcess emptyCatalog
      { uniqueToken := "c.x.1", sender := "c.x",
        senderServiceName := "com.x", payload := "\x7b\"subscribe\": true\x7d",
        payloadParse := some [("subscribe", JValue.jbool true)],
        kind := "/cat/m" } false true =
      ((_CatalogAdd emptyCatalog "/cat/m"
         { uniqueToken := "c.x.1", sender := "c.x",
           senderServiceName := "com.x", payload := "\x7b\"subscribe\": true\x7d",
           payloadParse := some [("subscribe", JValue.jbool true)],
           kind := "/cat/m" } true).1,
       (_CatalogAdd emptyCatalog "/cat/m"
         { uniqueToken := "c.x.1", sender := "c.x",
           senderServiceName := "com.x", payload := "\x7b\"subscribe\": true\x7d",
           payloadParse := some [("subscribe", JValue.jbool true)],
           kind := "/cat/m" } true).1,
       (_CatalogAdd emptyCatalog "/cat/m"
         { uniqueToken := "c.x.1", sender := "c.x",
           senderServiceName := "com.x", payload := "\x7b\"subscribe\": true\x7d",
           payloadParse := some [("subscribe", JValue.jbool true)],
           kind := "/cat/m" } true).2) :=
  ⟨by decide, by decide, by decide,
   (process_spec emptyCatalog _ false true).2.2.1
     [("subscribe", JValue.jbool true)] (JValue.jbool true)
     (by decide) (by decide) (by decide)⟩

theorem length_filterMap_isSome (tm : List (String × Subscription))
    (payload : String) (toks : List String) :
    (toks.filterMap (fun tok =>
       (lookupA tm tok).map (fun subs => (subs.message, payload)))).length =
      (toks.filter (fun t => (lookupA tm t).isSome)).length := by
  induction toks with
  | nil => rfl
  | cons t rest ih =>
      cases hg : lookupA tm t with
      | none => simp [List.filterMap_cons, List.filter_cons, hg, ih]
      | some b => simp [List.filterMap_cons, List.filter_cons, hg, ih]

/-- A concrete message from connection cX. -/
def msgX : Message :=
  { uniqueToken := "cX.1", sender := "cX", senderServiceName := "com.X",
    payload := "pX", payloadParse := none, kind := "/a/b" }

/-- A concrete catalog with the single subscriber cX.1 on topicA. -/
def replyCatalog : Catalog :=
  { token_map := [("cX.1", { message := msgX, keys := ["topicA"], ref := 1 })],
    subscription_lists := [("topicA", ["cX.1"])],
    cancel_fn := false }

/-- C7: LSSubscriptionReply succeeds and delivers the payload once per
identifier of the key's SubscriberList that resolves to a live
Subscription; a key with no list delivers nothing; LSSubscriptionRespond
performs exactly the deliveries of a reply on the public connection
followed by those of a reply on the private connection. -/
theorem reply_spec (cpub cpriv c : Catalog) (key payload : String) :
    (LSSubscriptionReply c key payload).1 = true ∧
    (∀ tokens, lookupA c.subscription_lists key = some tokens →
       (∀ tok ∈ tokens, ∀ subs, lookupA c.token_map tok = some subs →
          (subs.message, payload) ∈ (LSSubscriptionReply c key payload).2) ∧
       (LSSubscriptionReply c key payload).2.length =
         (tokens.filter (fun t => (lookupA c.token_map t).isSome)).length) ∧
    (lookupA c.subscription_lists key = none →
       LSSubscriptionReply c key payload = (true, [])) ∧
    (LSSubscriptionRespond cpub cpriv key payload).1 = true ∧
    (LSSubscriptionRespond cpub cpriv key payload).2 =
      (LSSubscriptionReply cpub key payload).2 ++
        (LSSubscriptionReply cpriv key payload).2 := by
  have hfst : ∀ d : Catalog, (LSSubscriptionReply d key payload).1 = true := by
    intro d
    rw [LSSubscriptionReply]
    cases lookupA d.subscription_lists key <;> rfl
  refine ⟨hfst c, ?_, ?_, ?_, ?_⟩
  · intro tokens htk
    rw [LSSubscriptionReply, htk]
    constructor
    · intro tok htok subs hsubs
      simp only []
      exact List.mem_filterMap.mpr ⟨tok, htok, by rw [hsubs]; rfl⟩
    · exact length_filterMap_isSome c.token_map payload tokens
  · intro hnone
    rw [LSSubscriptionReply, hnone]
  · rw [LSSubscriptionRespond]
    simp only [hfst cpub, hfst cpriv]
    rfl
  · rw [LSSubscriptionRespond]

/-- Witness for C7: on the concrete one-subscriber catalog the reply to
topicA delivers the payload to the subscriber's message. -/
theorem reply_spec_witness :
    lookupA replyCatalog.subscription_lists "topicA" = some ["cX.1"] ∧
    lookupA replyCatalog.token_map "cX.1" =
      some { message := msgX, keys := ["topicA"], ref := 1 } ∧
    (msgX, "news") ∈ (LSSubscriptionReply replyCatalog "topicA" "news").2 :=
  ⟨by decide, by decide,
   ((reply_spec replyCatalog replyCatalog replyCatalog "topicA" "news").2.1
     ["cX.1"] (by decide)).1 "cX.1" (by decide)
     { message := msgX, keys := ["topicA"], ref := 1 } (by decide)⟩

/-- C8: LSSubscriptionNext advances the cursor by one; when the token at
the new cursor resolves through _SubscriptionAcquire it returns that
subscription's message, prepends it to the accumulator of held messages
and leaves the catalog as it was (the temporary reference is released);
when the slot's token no longer resolves, or the cursor leaves the
snapshot, it returns none with the accumulator and catalog unchanged. -/
theorem next_spec (c : Catalog) (iter : LSSubscriptionIter) :
    (LSSubscriptionNext c iter).2.1.index = iter.index + 1 ∧
    (∀ tok, _SubListGet iter.tokens (iter.index + 1) = some tok →
       (∀ subs, lookupA c.token_map tok = some subs →
          (LSSubscriptionNext c iter).1 = some subs.message ∧
          (LSSubscriptionNext c iter).2.1.seen_messages =
            subs.message :: iter.seen_messages ∧
          (LSSubscriptionNext c iter).2.2 = c) ∧
       (lookupA c.token_map tok = none →
          (LSSubscriptionNext c iter).1 = none ∧
          (LSSubscriptionNext c iter).2.1.seen_messages = iter.seen_messages ∧
          (LSSubscriptionNext c iter).2.2 = c)) ∧
    (_SubListGet iter.tokens (iter.index + 1) = none →
       (LSSubscriptionNext c iter).1 = none ∧
       (LSSubscriptionNext c iter).2.1.seen_messages = iter.seen_messages ∧
       (LSSubscriptionNext c iter).2.2 = c) := by
  refine ⟨?_, ?_, ?_⟩
  · rw [LSSubscriptionNext]
    cases hget : _SubListGet iter.tokens (iter.index + 1) with
    | none => rfl
    | some tok =>
        simp only []
        rw [_SubscriptionAcquire]
        cases hs : lookupA c.token_map tok <;> rfl
  · intro tok hget
    rw [LSSubscriptionNext, hget]
    simp only []
    constructor
    · intro subs hs
      rw [_SubscriptionAcquire, hs]
      refine ⟨rfl, rfl, ?_⟩
      simp only []
      rw [insertA_insertA]
      have : subs.ref + 1 - 1 = subs.ref := by omega
      rw [this]
      rw [insertA_lookupA c.token_map tok subs hs]
    · intro hs
      rw [_SubscriptionAcquire, hs]
      exact ⟨rfl, rfl, rfl⟩
  · intro hget
    rw [LSSubscriptionNext, hget]
    exact ⟨rfl, rfl, rfl⟩

/-- Witness for C8: on the concrete one-subscriber catalog, a fresh
iterator's first Next resolves cX.1, returns its message, accumulates it,
and leaves the catalog unchanged. -/
theorem next_spec_witness :
    _SubListGet (LSSubscriptionAcquire replyCatalog "topicA").tokens
      ((LSSubscriptionAcquire replyCatalog "topicA").index + 1) = some "cX.1" ∧
    lookupA replyCatalog.token_map "cX.1" =
      some { message := msgX, keys := ["topicA"], ref := 1 } ∧
    ((LSSubscriptionNext replyCatalog
        (LSSubscriptionAcquire replyCatalog "topicA")).1 = some msgX ∧
     (LSSubscriptionNext replyCatalog
        (LSSubscriptionAcquire replyCatalog "topicA")).2.1.seen_messages =
       msgX :: (LSSubscriptionAcquire replyCatalog "topicA").seen_messages ∧
     (LSSubscriptionNext replyCatalog
        (LSSubscriptionAcquire replyCatalog "topicA")).2.2 = replyCatalog) :=
  ⟨by decide, by decide,
   ((next_spec replyCatalog (LSSubscriptionAcquire replyCatalog "topicA")).2.1
     "cX.1" (by decide)).1
     { message := msgX, keys := ["topicA"], ref := 1 } (by decide)⟩

theorem lockStateAt_only_delivers (ds : List CEvent) (h : Bool)
    (hds : ∀ e ∈ ds, ∃ m p, e = CEvent.deliverEv m p) :
    ∀ b ∈ lockStateAtInvocations (ds ++ [CEvent.unlockEv]) h, b = h := by
  induction ds with
  | nil =>
      intro b hb
      simp [lockStateAtInvocations] at hb
  | cons e rest ih =>
      obtain ⟨m, p, rfl⟩ := hds e (List.mem_cons_self _ _)
      intro b hb
      rw [List.cons_append, lockStateAtInvocations] at hb
      rcases List.mem_cons.mp hb with rfl | hb'
      · rfl
      · exact ih (fun e' he' => hds e' (List.mem_cons_of_mem _ he')) b hb'

/-- Counterexample to C6 as stated: on a catalog with one subscriber of
topicA, the single reply delivery of LSSubscriptionReply runs while the
catalog lock is held (the recorded lock state at the delivery is true,
not false). -/
theorem reply_delivery_inside_lock_counterexample :
    lockStateAtInvocations (replyTrace replyCatalog "topicA" "news") false =
      [true] := by
  decide

/-- C6, amended: in every execution of _CatalogRemoveToken the cancellation
callback is invoked outside the lock, but every reply delivery of
LSSubscriptionReply is performed while the catalog lock is held. -/
theorem lock_discipline_amended :
    (∀ (c : Catalog) (token : String) (notify : Bool),
       ∀ b ∈ lockStateAtInvocations (removeTokenTrace c token notify) false,
         b = false) ∧
    (∀ (c : Catalog) (key payload : String),
       ∀ b ∈ lockStateAtInvocations (replyTrace c key payload) false,
         b = true) := by
  constructor
  · intro c token notify b hb
    rw [removeTokenTrace] at hb
    cases hl : lookupA c.token_map token with
    | none =>
        rw [hl] at hb
        simp [lockStateAtInvocations] at hb
    | some subs =>
        rw [hl] at hb
        by_cases hn : notify ∧ c.cancel_fn
        · simp [lockStateAtInvocations, hn] at hb
          exact hb
        · simp [lockStateAtInvocations, hn] at hb
  · intro c key payload b hb
    rw [replyTrace] at hb
    cases hl : lookupA c.subscription_lists key with
    | none =>
        rw [hl] at hb
        simp [lockStateAtInvocations] at hb
    | some tokens =>
        rw [hl] at hb
        simp only [List.cons_append, List.nil_append] at hb
        rw [lockStateAtInvocations] at hb
        refine lockStateAt_only_delivers _ true ?_ b hb
        intro e he
        rcases List.mem_filterMap.mp he with ⟨tok, _, hmap⟩
        cases hs : lookupA c.token_map tok with
        | none => rw [hs] at hmap; simp at hmap
        | some subs =>
            rw [hs] at hmap
            simp at hmap
            exact ⟨subs.message, payload, hmap.symm⟩

/-- Witness for C6: a concrete callback invocation outside the lock and a
concrete delivery inside the lock. -/
theorem lock_discipline_amended_witness :
    false ∈ lockStateAtInvocations
      (removeTokenTrace { replyCatalog with cancel_fn := true } "cX.1" true)
      false ∧
    true ∈ lockStateAtInvocations (replyTrace replyCatalog "topicA" "news")
      false ∧
    false = false ∧ true = true :=
  ⟨by decide, by decide,
   lock_discipline_amended.1 { replyCatalog with cancel_fn := true } "cX.1" true
     false (by decide),
   lock_discipline_amended.2 replyCatalog "topicA" "news" true (by decide)⟩

/-
Evaluation lemmas for _CatalogAdd: the three shapes a call reduces to,
depending on whether the token already resolves and on the ok flag.
-/

/-- The subscription_lists index after a successful _CatalogAdd of a token
under a key. -/
def addLists (sl : List (String × List String)) (key token : String) :
    List (String × List String) :=
  match lookupA sl key with
  | none => insertA sl key [token]
  | some l =>
      if _SubListContains l token then sl else insertA sl key (l ++ [token])

/-- The subscription_lists index after a failed _CatalogAdd: the fresh empty
list inserted before the failure stays behind. -/
def addListsFail (sl : List (String × List String)) (key : String) :
    List (String × List String) :=
  match lookupA sl key with
  | none => insertA sl key []
  | some _ => sl

theorem CatalogAdd_eq_some (c : Catalog) (k : String) (m : Message) (ok : Bool)
    (subs : Subscription)
    (htm : lookupA c.token_map m.uniqueToken = some subs) :
    _CatalogAdd c k m ok =
      (true,
       { c with
         token_map :=
           if g_char_ptr_array_contains subs.keys k then c.token_map
           else insertA c.token_map m.uniqueToken
             { subs with keys := subs.keys ++ [k] },
         subscription_lists := addLists c.subscription_lists k m.uniqueToken }) := by
  rw [_CatalogAdd]
  simp only [htm]
  cases hsl : lookupA c.subscription_lists k with
  | none =>
      simp only [addLists, hsl, _SubListContains, List.any_nil, Bool.false_eq_true,
        if_false, _SubListAdd, List.nil_append, insertA_insertA]
  | some l =>
      simp only [addLists, hsl, _SubListAdd]

theorem CatalogAdd_eq_none_ok (c : Catalog) (k : String) (m : Message)
    (htm : lookupA c.token_map m.uniqueToken = none) :
    _CatalogAdd c k m true =
      (true,
       { c with
         token_map := insertA c.token_map m.uniqueToken
           { message := m, keys := [k], ref := 1 },
         subscription_lists := addLists c.subscription_lists k m.uniqueToken }) := by
  rw [_CatalogAdd]
  simp only [htm, g_char_ptr_array_contains, List.any_nil,
    Bool.false_eq_true, if_false, if_true, insertA_insertA, List.nil_append]
  cases hsl : lookupA c.subscription_lists k with
  | none =>
      simp only [addLists, hsl, _SubListContains, List.any_nil, Bool.false_eq_true,
        if_false, if_true, _SubListAdd, List.nil_append, insertA_insertA]
  | some l =>
      simp only [addLists, hsl, _SubListAdd, if_true, List.nil_append]

theorem CatalogAdd_eq_none_fail (c : Catalog) (k : String) (m : Message)
    (htm : lookupA c.token_map m.uniqueToken = none) :
    _CatalogAdd c k m false =
      (false, { c with subscription_lists := addListsFail c.subscription_lists k }) := by
  rw [_CatalogAdd]
  simp only [htm, Bool.false_eq_true, if_false]
  cases hsl : lookupA c.subscription_lists k with
  | none => simp only [addListsFail, hsl]
  | some l => simp only [addListsFail, hsl]

theorem addLists_idem (sl : List (String × List String)) (k tok : String) :
    addLists (addLists sl k tok) k tok = addLists sl k tok := by
  cases hsl : lookupA sl k with
  | none =>
      simp only [addLists, hsl, lookupA_insertA_self]
      simp [_SubListContains, strncmpEq50_refl]
  | some l =>
      by_cases hc : _SubListContains l tok = true
      · simp only [addLists, hsl, hc, if_true]
      · simp only [addLists, hsl, hc, if_false, Bool.false_eq_true,
          lookupA_insertA_self, _SubListContains_append_self, if_true]

theorem addListsFail_idem (sl : List (String × List String)) (k : String) :
    addListsFail (addListsFail sl k) k = addListsFail sl k := by
  cases hsl : lookupA sl k with
  | none => simp only [addListsFail, hsl, lookupA_insertA_self]
  | some l => simp only [addListsFail, hsl]

theorem CatalogAdd_idem (c : Catalog) (k : String) (m : Message) (ok : Bool) :
    _CatalogAdd (_CatalogAdd c k m ok).2 k m ok = _CatalogAdd c k m ok := by
  cases htm : lookupA c.token_map m.uniqueToken with
  | some subs =>
      rw [CatalogAdd_eq_some c k m ok subs htm]
      by_cases hk : g_char_ptr_array_contains subs.keys k = true
      · rw [if_pos hk]
        simp only []
        rw [CatalogAdd_eq_some
          { token_map := c.token_map,
            subscription_lists := addLists c.subscription_lists k m.uniqueToken,
            cancel_fn := c.cancel_fn } k m ok subs htm]
        simp only []
        rw [if_pos hk, addLists_idem]
      · rw [if_neg hk]
        simp only []
        rw [CatalogAdd_eq_some
          { token_map := insertA c.token_map m.uniqueToken
              { subs with keys := subs.keys ++ [k] },
            subscription_lists := addLists c.subscription_lists k m.uniqueToken,
            cancel_fn := c.cancel_fn } k m ok { subs with keys := subs.keys ++ [k] }
          (lookupA_insertA_self _ _ _)]
        simp only []
        rw [if_pos (by
          rw [g_char_ptr_array_contains_iff]
          exact List.mem_append_right _ (List.mem_singleton.mpr rfl))]
        rw [addLists_idem]
  | none =>
      cases ok with
      | true =>
          rw [CatalogAdd_eq_none_ok c k m htm]
          simp only []
          rw [CatalogAdd_eq_some
            { token_map := insertA c.token_map m.uniqueToken
                { message := m, keys := [k], ref := 1 },
              subscription_lists := addLists c.subscription_lists k m.uniqueToken,
              cancel_fn := c.cancel_fn } k m true { message := m, keys := [k], ref := 1 }
            (lookupA_insertA_self _ _ _)]
          simp only []
          rw [if_pos (by
            rw [g_char_ptr_array_contains_iff]
            exact List.mem_singleton.mpr rfl)]
          rw [addLists_idem]
      | false =>
          rw [CatalogAdd_eq_none_fail c k m htm]
          simp only []
          rw [CatalogAdd_eq_none_fail
            { token_map := c.token_map,
              subscription_lists := addListsFail c.subscription_lists k,
              cancel_fn := c.cancel_fn } k m htm]
          simp only []
          rw [addListsFail_idem]

/-- No entry of any bound list collides with the token on the first 50
characters without being the token itself. -/
def NoListCollision (sl : List (String × List String)) (tok : String) : Prop :=
  ∀ p ∈ sl, ∀ t ∈ p.2, strncmpEq50 t tok = true → t = tok

theorem addLists_lookup_ne (sl : List (String × List String)) (k k' tok : String)
    (h : k' ≠ k) : lookupA (addLists sl k tok) k' = lookupA sl k' := by
  cases hsl : lookupA sl k with
  | none =>
      simp only [addLists, hsl]
      exact lookupA_insertA_ne sl k k' _ h
  | some l =>
      by_cases hc : _SubListContains l tok = true
      · simp only [addLists, hsl, hc, if_true]
      · simp only [addLists, hsl, hc, Bool.false_eq_true, if_false]
        exact lookupA_insertA_ne sl k k' _ h

theorem addLists_token_mem (sl : List (String × List String)) (k tok : String)
    (hcf : NoListCollision sl tok) :
    ∃ l, lookupA (addLists sl k tok) k = some l ∧ tok ∈ l := by
  cases hsl : lookupA sl k with
  | none =>
      refine ⟨[tok], ?_, List.mem_singleton.mpr rfl⟩
      simp only [addLists, hsl]
      exact lookupA_insertA_self sl k [tok]
  | some l =>
      by_cases hc : _SubListContains l tok = true
      · refine ⟨l, by simp only [addLists, hsl, hc, if_true], ?_⟩
        rcases (_SubListContains_iff l tok).mp hc with ⟨t, ht, hm⟩
        have := hcf (k, l) (lookupA_mem sl k l hsl) t ht hm
        rwa [← this]
      · refine ⟨l ++ [tok], ?_, List.mem_append_right _ (List.mem_singleton.mpr rfl)⟩
        simp only [addLists, hsl, hc, Bool.false_eq_true, if_false]
        exact lookupA_insertA_self sl k _

theorem addLists_preserves_mem (sl : List (String × List String))
    (k k1 tok t : String) (l : List String)
    (hl : lookupA sl k1 = some l) (ht : t ∈ l) :
    ∃ l', lookupA (addLists sl k tok) k1 = some l' ∧ t ∈ l' := by
  by_cases hk : k1 = k
  · subst hk
    by_cases hc : _SubListContains l tok = true
    · refine ⟨l, ?_, ht⟩
      simp only [addLists, hl, hc, if_true]
    · refine ⟨l ++ [tok], ?_, List.mem_append_left _ ht⟩
      simp only [addLists, hl, hc, Bool.false_eq_true, if_false]
      exact lookupA_insertA_self sl k1 _
  · exact ⟨l, by rw [addLists_lookup_ne sl k k1 tok hk]; exact hl, ht⟩

theorem CatalogAdd_lookup_token (c : Catalog) (k : String) (m : Message) :
    ∃ s, lookupA ((_CatalogAdd c k m true).2).token_map m.uniqueToken = some s := by
  cases htm : lookupA c.token_map m.uniqueToken with
  | some subs =>
      rw [CatalogAdd_eq_some c k m true subs htm]
      by_cases hk : g_char_ptr_array_contains subs.keys k = true
      · rw [if_pos hk]
        exact ⟨subs, htm⟩
      · rw [if_neg hk]
        exact ⟨_, lookupA_insertA_self _ _ _⟩
  | none =>
      rw [CatalogAdd_eq_none_ok c k m htm]
      exact ⟨_, lookupA_insertA_self _ _ _⟩

theorem CatalogAdd_keysOf_of_some (c : Catalog) (k : String) (m : Message)
    (ok : Bool) (subs : Subscription)
    (htm : lookupA c.token_map m.uniqueToken = some subs) :
    keysOf ((_CatalogAdd c k m ok).2).token_map = keysOf c.token_map := by
  rw [CatalogAdd_eq_some c k m ok subs htm]
  by_cases hk : g_char_ptr_array_contains subs.keys k = true
  · rw [if_pos hk]
  · rw [if_neg hk]
    exact keysOf_insertA_of_mem _ _ _ (mem_keysOf_of_lookupA _ _ _ htm)

theorem CatalogAdd_count_one (c : Catalog) (k : String) (m : Message)
    (hnd : (keysOf c.token_map).Nodup) :
    (keysOf ((_CatalogAdd c k m true).2).token_map).count m.uniqueToken = 1 ∧
    (keysOf ((_CatalogAdd c k m true).2).token_map).Nodup := by
  cases htm : lookupA c.token_map m.uniqueToken with
  | some subs =>
      rw [CatalogAdd_keysOf_of_some c k m true subs htm]
      refine ⟨?_, hnd⟩
      have hmem : m.uniqueToken ∈ keysOf c.token_map :=
        mem_keysOf_of_lookupA _ _ _ htm
      exact List.count_eq_one_of_mem hnd hmem
  | none =>
      rw [CatalogAdd_eq_none_ok c k m htm]
      have hnm : m.uniqueToken ∉ keysOf c.token_map :=
        (lookupA_none_iff _ _).mp htm
      constructor
      · show (keysOf (insertA c.token_map m.uniqueToken _)).count _ = 1
        rw [keysOf_insertA_of_not_mem _ _ _ hnm, List.count_append]
        rw [List.count_eq_zero_of_not_mem hnm]
        simp
      · exact nodup_keysOf_insertA _ _ _ hnd

theorem CatalogAdd_lists (c : Catalog) (k : String) (m : Message) :
    ((_CatalogAdd c k m true).2).subscription_lists =
      addLists c.subscription_lists k m.uniqueToken := by
  cases htm : lookupA c.token_map m.uniqueToken with
  | some subs => rw [CatalogAdd_eq_some c k m true subs htm]
  | none => rw [CatalogAdd_eq_none_ok c k m htm]

theorem WFCheck_props (c : Catalog) (h : WFCheck c = true) :
    (keysOf c.token_map).Nodup ∧ (keysOf c.subscription_lists).Nodup ∧
    ListsPD c.subscription_lists := by
  rw [WFCheck, Bool.and_eq_true, Bool.and_eq_true] at h
  rcases h with ⟨⟨h1, h2⟩, h3⟩
  refine ⟨?_, ?_, ?_⟩
  · rw [nodupKeysCheck, decide_eq_true_eq] at h1
    exact h1
  · rw [nodupKeysCheck, decide_eq_true_eq] at h2
    exact h2
  · intro p hp
    rw [listsPrefix50DistinctCheck, List.all_eq_true] at h3
    have := h3 p hp
    rw [decide_eq_true_eq] at this
    exact this

theorem getJson_keys (c : Catalog) :
    (_LSSubscriptionGetJson c).map Prod.fst = keysOf c.subscription_lists := by
  rw [_LSSubscriptionGetJson, keysOf, List.map_map]
  rfl

theorem CatalogRemoveToken_eq_some (c : Catalog) (token : String) (notify : Bool)
    (subs : Subscription) (h : lookupA c.token_map token = some subs) :
    _CatalogRemoveToken c token notify =
      (true,
       { c with
         token_map := eraseA c.token_map token,
         subscription_lists :=
           _CatalogRemoveKeys token subs.keys c.subscription_lists }) := by
  rw [_CatalogRemoveToken, _SubscriptionAcquire, h]
  simp only []
  rw [eraseA_insertA]

theorem CatalogRemoveToken_eq_none (c : Catalog) (token : String) (notify : Bool)
    (h : lookupA c.token_map token = none) :
    _CatalogRemoveToken c token notify = (false, c) := by
  rw [_CatalogRemoveToken, _SubscriptionAcquire, h]

/-- C2: on a well-formed catalog, _CatalogRemoveToken on a present
identifier returns found, removes the identifier from the identifier map
and from the SubscriberList of every key in its Subscription's key set,
deletes any list that thereby becomes empty (such a key also vanishes from
the rendered snapshot), and on an absent identifier returns not-found with
the state untouched. -/
theorem removeToken_spec (c : Catalog) (id : String) (notify : Bool)
    (hwf : WFCheck c = true) :
    (∀ subs, lookupA c.token_map id = some subs →
       (_CatalogRemoveToken c id notify).1 = true ∧
       lookupA ((_CatalogRemoveToken c id notify).2).token_map id = none ∧
       (∀ key ∈ subs.keys, ∀ l',
          lookupA ((_CatalogRemoveToken c id notify).2).subscription_lists key =
            some l' → id ∉ l' ∧ l' ≠ []) ∧
       (∀ key ∈ subs.keys, ∀ l, lookupA c.subscription_lists key = some l →
          _SubListRemove l id = [] →
          lookupA ((_CatalogRemoveToken c id notify).2).subscription_lists key =
            none ∧
          key ∉ (_LSSubscriptionGetJson
            (_CatalogRemoveToken c id notify).2).map Prod.fst)) ∧
    (lookupA c.token_map id = none → _CatalogRemoveToken c id notify = (false, c)) := by
  rcases WFCheck_props c hwf with ⟨hnd1, hnd2, hpd⟩
  constructor
  · intro subs hs
    rw [CatalogRemoveToken_eq_some c id notify subs hs]
    simp only []
    refine ⟨trivial, ?_, ?_, ?_⟩
    · exact lookupA_eraseA_self c.token_map id hnd1
    · intro key hkey l' hl'
      rcases removeKeys_processed id subs.keys c.subscription_lists key hnd2 hpd
        hkey l' hl' with ⟨hno, hnn⟩
      refine ⟨?_, hnn⟩
      intro hmem
      have := hno id hmem
      rw [strncmpEq50_refl] at this
      exact absurd this (by simp)
    · intro key hkey l hl hrm
      have hnone : lookupA (_CatalogRemoveKeys id subs.keys c.subscription_lists)
          key = none :=
        removeKeys_emptied id subs.keys c.subscription_lists key l hnd2 hkey hl hrm
      refine ⟨hnone, ?_⟩
      rw [getJson_keys]
      exact (lookupA_none_iff _ _).mp hnone
  · intro h
    exact CatalogRemoveToken_eq_none c id notify h

/-- Witness for C2: removing the only subscriber of topicA on the concrete
one-subscriber catalog reports found, clears the identifier map entry, and
topicA vanishes from the snapshot. -/
theorem removeToken_spec_witness :
    WFCheck replyCatalog = true ∧
    lookupA replyCatalog.token_map "cX.1" =
      some { message := msgX, keys := ["topicA"], ref := 1 } ∧
    (_CatalogRemoveToken replyCatalog "cX.1" false).1 = true ∧
    lookupA ((_CatalogRemoveToken replyCatalog "cX.1" false).2).token_map
      "cX.1" = none ∧
    "topicA" ∉ (_LSSubscriptionGetJson
      (_CatalogRemoveToken replyCatalog "cX.1" false).2).map Prod.fst :=
  ⟨by decide, by decide,
   ((removeToken_spec replyCatalog "cX.1" false (by decide)).1
     { message := msgX, keys := ["topicA"], ref := 1 } (by decide)).1,
   ((removeToken_spec replyCatalog "cX.1" false (by decide)).1
     { message := msgX, keys := ["topicA"], ref := 1 } (by decide)).2.1,
   (((removeToken_spec replyCatalog "cX.1" false (by decide)).1
     { message := msgX, keys := ["topicA"], ref := 1 } (by decide)).2.2.2
     "topicA" (by decide) ["cX.1"] (by decide) (by decide)).2⟩

/-
Invariant I3: no key is bound to an empty SubscriberList.
-/

/-- Invariant I3 as a proposition over the entries of the key index. -/
def I3P (c : Catalog) : Prop := ∀ p ∈ c.subscription_lists, p.2 ≠ []

theorem addLists_entries (sl : List (String × List String)) (k tok : String)
    (p : String × List String) (hp : p ∈ addLists sl k tok) :
    p ∈ sl ∨ p.2 ≠ [] := by
  cases hsl : lookupA sl k with
  | none =>
      simp only [addLists, hsl] at hp
      rcases mem_insertA sl k [tok] p hp with hmem | rfl
      · exact Or.inl hmem
      · right
        simp
  | some l =>
      simp only [addLists, hsl] at hp
      by_cases hc : _SubListContains l tok = true
      · rw [if_pos hc] at hp
        exact Or.inl hp
      · rw [if_neg hc] at hp
        rcases mem_insertA sl k _ p hp with hmem | rfl
        · exact Or.inl hmem
        · right
          simp

theorem I3P_add (c : Catalog) (k : String) (m : Message) (h : I3P c) :
    I3P (_CatalogAdd c k m true).2 := by
  intro p hp
  rw [CatalogAdd_lists c k m] at hp
  rcases addLists_entries c.subscription_lists k m.uniqueToken p hp with hmem | hne
  · exact h p hmem
  · exact hne

theorem I3P_remove (c : Catalog) (tok : String) (notify : Bool) (h : I3P c) :
    I3P (_CatalogRemoveToken c tok notify).2 := by
  cases hs : lookupA c.token_map tok with
  | none =>
      rw [CatalogRemoveToken_eq_none c tok notify hs]
      exact h
  | some subs =>
      intro p hp
      rw [CatalogRemoveToken_eq_some c tok notify subs hs] at hp
      simp only [] at hp
      rcases removeKeys_entries tok subs.keys c.subscription_lists p hp with hmem | hne
      · exact h p hmem
      · exact hne

theorem I3P_handleCancel (c : Catalog) (m : Message) (h : I3P c) :
    I3P (_CatalogHandleCancel c m).2 := by
  rw [_CatalogHandleCancel]
  cases hp : m.payloadParse with
  | none => exact h
  | some obj =>
      simp only []
      cases ht : json_object_object_get_ex obj "token" with
      | none => exact h
      | some v =>
          simp only []
          exact I3P_remove c _ true h

theorem I3P_process (c : Catalog) (m : Message) (subscribed : Bool) (h : I3P c) :
    I3P (LSSubscriptionProcess c m subscribed true).2.2 := by
  rw [LSSubscriptionProcess]
  cases hp : m.payloadParse with
  | none => exact h
  | some obj =>
      simp only []
      cases ht : json_object_object_get_ex obj "subscribe" with
      | none => exact h
      | some v =>
          simp only []
          by_cases hb : json_object_get_boolean v = true
          · rw [if_pos hb]
            exact I3P_add c m.kind m h
          · rw [if_neg hb]
            exact h

theorem I3P_iterRemove (c : Catalog) (iter : LSSubscriptionIter) (h : I3P c) :
    I3P (LSSubscriptionRemoveCurrent c iter) := by
  rw [LSSubscriptionRemoveCurrent]
  cases hg : _SubListGet iter.tokens iter.index with
  | none => exact h
  | some tok =>
      simp only []
      exact I3P_remove c tok false h

theorem I3P_reach (c : Catalog) (h : Reach GoodOk c) : I3P c := by
  induction h with
  | start => intro p hp; simp [emptyCatalog] at hp
  | setCancel c' b _ ih => exact ih
  | add c' key m ok _ hg ih =>
      have hok : ok = true := hg
      rw [hok]
      exact I3P_add c' key m ih
  | remove c' token notify _ ih => exact I3P_remove c' token notify ih
  | cancel c' m _ ih => exact I3P_handleCancel c' m ih
  | process c' m subscribed ok _ hg ih =>
      have hok : ok = true := hg
      rw [hok]
      exact I3P_process c' m subscribed ih
  | iterRemove c' iter _ ih => exact I3P_iterRemove c' iter ih

/-- Counterexample to C4 as stated: from the empty catalog, an Add of a
fresh key whose Subscription creation fails is a reachable operation that
leaves the key bound to an empty SubscriberList — the half-applied
mutation survives the failure and I3 is violated. -/
theorem i3_violated_by_failed_add_counterexample :
    Reach GoodAny (_CatalogAdd emptyCatalog "topicA" msgX false).2 ∧
    lookupA ((_CatalogAdd emptyCatalog "topicA" msgX false).2).subscription_lists
      "topicA" = some [] ∧
    I3Check (_CatalogAdd emptyCatalog "topicA" msgX false).2 = false :=
  ⟨Reach.add emptyCatalog "topicA" msgX false Reach.start trivial,
   by decide, by decide⟩

/-- C4, amended: in every state reachable by operations whose Subscription
creation succeeds (and by removals, cancels, processes and iterator
removals without restriction), every key present in the key index has a
non-empty SubscriberList; only an Add failing at Subscription creation can
leave an empty list behind. -/
theorem i3_no_empty_lists_amended (c : Catalog) (h : Reach GoodOk c) :
    I3Check c = true := by
  have hp := I3P_reach c h
  rw [I3Check, List.all_eq_true]
  intro p hmem
  rw [decide_eq_true_eq]
  exact hp p hmem

/-- Witness for the amended C4: one successful add from the empty catalog
reaches a state satisfying I3. -/
theorem i3_no_empty_lists_amended_witness :
    I3Check (_CatalogAdd emptyCatalog "topicA" msgX true).2 = true :=
  i3_no_empty_lists_amended _
    (Reach.add emptyCatalog "topicA" msgX true Reach.start rfl)

/-
Invariant I2: bidirectional consistency of the two indexes.
-/

theorem lookupA_of_mem_nodup {α : Type} (l : List (String × α)) (k : String)
    (v : α) (hnd : (keysOf l).Nodup) (h : (k, v) ∈ l) : lookupA l k = some v := by
  induction l with
  | nil => simp at h
  | cons p rest ih =>
      obtain ⟨a, w⟩ := p
      rw [show keysOf ((a, w) :: rest) = a :: keysOf rest from rfl] at hnd
      rcases List.nodup_cons.mp hnd with ⟨hna, hnd'⟩
      rcases List.mem_cons.mp h with heq | hmem
      · injection heq.symm with h1 h2
        rw [lookupA, if_pos h1, h2]
      · rw [lookupA]
        by_cases ha : a = k
        · exfalso
          apply hna
          rw [ha]
          exact List.mem_map_of_mem Prod.fst hmem
        · rw [if_neg ha]
          exact ih hnd' hmem

theorem addLists_nodupKeys (sl : List (String × List String)) (k tok : String)
    (hnd : (keysOf sl).Nodup) : (keysOf (addLists sl k tok)).Nodup := by
  cases hsl : lookupA sl k with
  | none =>
      simp only [addLists, hsl]
      exact nodup_keysOf_insertA sl k _ hnd
  | some l =>
      by_cases hc : _SubListContains l tok = true
      · simp only [addLists, hsl, hc, if_true]
        exact hnd
      · simp only [addLists, hsl, hc, Bool.false_eq_true, if_false]
        exact nodup_keysOf_insertA sl k _ hnd

theorem addLists_PD (sl : List (String × List String)) (k tok : String)
    (h : ListsPD sl) : ListsPD (addLists sl k tok) := by
  intro p hp
  cases hsl : lookupA sl k with
  | none =>
      simp only [addLists, hsl] at hp
      rcases mem_insertA sl k [tok] p hp with hmem | rfl
      · exact h p hmem
      · exact List.pairwise_singleton _ _
  | some l =>
      simp only [addLists, hsl] at hp
      by_cases hc : _SubListContains l tok = true
      · rw [if_pos hc] at hp
        exact h p hp
      · rw [if_neg hc] at hp
        rcases mem_insertA sl k _ p hp with hmem | rfl
        · exact h p hmem
        · show PairwiseDistinct50 (l ++ [tok])
          rw [PairwiseDistinct50, List.pairwise_append]
          refine ⟨h (k, l) (lookupA_mem sl k l hsl), List.pairwise_singleton _ _, ?_⟩
          intro a ha b hb
          rcases List.mem_singleton.mp hb with rfl
          rw [(_SubListContains_eq_false l b).mp (by
            rw [← Bool.not_eq_true]
            exact hc) a ha]
          simp

theorem addLists_lookup_cases (sl : List (String × List String))
    (k tok key' : String) (l' : List String)
    (h : lookupA (addLists sl k tok) key' = some l') :
    (key' ≠ k ∧ lookupA sl key' = some l') ∨
    (key' = k ∧ lookupA sl k = none ∧ l' = [tok]) ∨
    (key' = k ∧ ∃ l, lookupA sl k = some l ∧ _SubListContains l tok = true ∧
      l' = l) ∨
    (key' = k ∧ ∃ l, lookupA sl k = some l ∧ _SubListContains l tok = false ∧
      l' = l ++ [tok]) := by
  by_cases hk : key' = k
  · subst hk
    cases hsl : lookupA sl key' with
    | none =>
        simp only [addLists, hsl, lookupA_insertA_self] at h
        rw [Option.some.injEq] at h
        exact Or.inr (Or.inl ⟨rfl, rfl, h.symm⟩)
    | some l =>
        by_cases hc : _SubListContains l tok = true
        · simp only [addLists, hsl, hc, if_true] at h
          rw [Option.some.injEq] at h
          exact Or.inr (Or.inr (Or.inl ⟨rfl, l, rfl, hc, h.symm⟩))
        · simp only [addLists, hsl, hc, Bool.false_eq_true, if_false,
            lookupA_insertA_self] at h
          rw [Option.some.injEq] at h
          exact Or.inr (Or.inr (Or.inr ⟨rfl, l, rfl,
            Bool.eq_false_iff.mpr hc, h.symm⟩))
  · rw [addLists_lookup_ne sl k key' tok hk] at h
    exact Or.inl ⟨hk, h⟩

theorem addListsFail_nodupKeys (sl : List (String × List String)) (k : String)
    (hnd : (keysOf sl).Nodup) : (keysOf (addListsFail sl k)).Nodup := by
  cases hsl : lookupA sl k with
  | none =>
      simp only [addListsFail, hsl]
      exact nodup_keysOf_insertA sl k _ hnd
  | some l =>
      simp only [addListsFail, hsl]
      exact hnd

theorem addListsFail_PD (sl : List (String × List String)) (k : String)
    (h : ListsPD sl) : ListsPD (addListsFail sl k) := by
  intro p hp
  cases hsl : lookupA sl k with
  | none =>
      simp only [addListsFail, hsl] at hp
      rcases mem_insertA sl k [] p hp with hmem | rfl
      · exact h p hmem
      · exact List.Pairwise.nil
  | some l =>
      simp only [addListsFail, hsl] at hp
      exact h p hp

theorem addListsFail_lookup_cases (sl : List (String × List String))
    (k key' : String) (l' : List String)
    (h : lookupA (addListsFail sl k) key' = some l') :
    lookupA sl key' = some l' ∨ (key' = k ∧ lookupA sl k = none ∧ l' = []) := by
  by_cases hk : key' = k
  · subst hk
    cases hsl : lookupA sl key' with
    | none =>
        simp only [addListsFail, hsl, lookupA_insertA_self] at h
        rw [Option.some.injEq] at h
        exact Or.inr ⟨rfl, rfl, h.symm⟩
    | some l =>
        simp only [addListsFail, hsl] at h
        exact Or.inl h
  · cases hsl : lookupA sl k with
    | none =>
        simp only [addListsFail, hsl] at h
        rw [lookupA_insertA_ne sl k key' _ hk] at h
        exact Or.inl h
    | some l =>
        simp only [addListsFail, hsl] at h
        exact Or.inl h

theorem addListsFail_preserves_mem (sl : List (String × List String))
    (k key1 t : String) (l : List String)
    (hl : lookupA sl key1 = some l) (ht : t ∈ l) :
    ∃ l', lookupA (addListsFail sl k) key1 = some l' ∧ t ∈ l' := by
  cases hsl : lookupA sl k with
  | none =>
      refine ⟨l, ?_, ht⟩
      simp only [addListsFail, hsl]
      have hk : key1 ≠ k := by
        intro hk
        rw [hk, hsl] at hl
        exact absurd hl (by simp)
      rw [lookupA_insertA_ne sl k key1 _ hk]
      exact hl
  | some l₂ =>
      refine ⟨l, ?_, ht⟩
      simp only [addListsFail, hsl]
      exact hl

/-- Tokens of the identifier map are pairwise distinguished by their first
50 characters. -/
def TokensPD (tm : List (String × Subscription)) : Prop :=
  ∀ t₁ ∈ keysOf tm, ∀ t₂ ∈ keysOf tm, strncmpEq50 t₁ t₂ = true → t₁ = t₂

/-- Invariant I2, forward direction: every token of a bound list resolves
to a subscription whose key array holds the list's key. -/
def I2aP (c : Catalog) : Prop :=
  ∀ key l, lookupA c.subscription_lists key = some l →
    ∀ t ∈ l, ∃ s, lookupA c.token_map t = some s ∧ key ∈ s.keys

/-- Invariant I2, backward direction: every key of a subscription's key
array names a bound list holding the subscription's token. -/
def I2bP (c : Catalog) : Prop :=
  ∀ t s, lookupA c.token_map t = some s →
    ∀ key ∈ s.keys, ∃ l, lookupA c.subscription_lists key = some l ∧ t ∈ l

/-- The inductive invariant carried over reachable states: structural
well-formedness of both indexes plus both directions of I2. -/
def StateInv (c : Catalog) : Prop :=
  (keysOf c.token_map).Nodup ∧ (keysOf c.subscription_lists).Nodup ∧
  ListsPD c.subscription_lists ∧ TokensPD c.token_map ∧ I2aP c ∧ I2bP c

theorem NoListCollision_of_good (c : Catalog) (tok : String)
    (hnd2 : (keysOf c.subscription_lists).Nodup) (hi2a : I2aP c)
    (hGood : ∀ t ∈ keysOf c.token_map, strncmpEq50 t tok = true → t = tok) :
    NoListCollision c.subscription_lists tok := by
  intro p hp t ht hm
  obtain ⟨key, l⟩ := p
  have hl := lookupA_of_mem_nodup c.subscription_lists key l hnd2 hp
  rcases hi2a key l hl t ht with ⟨s, hts, _⟩
  exact hGood t (mem_keysOf_of_lookupA _ _ _ hts) hm

theorem StateInv_add (c : Catalog) (key : String) (m : Message) (ok : Bool)
    (h : StateInv c)
    (hGood : ∀ t ∈ keysOf c.token_map,
      strncmpEq50 t m.uniqueToken = true → t = m.uniqueToken) :
    StateInv (_CatalogAdd c key m ok).2 := by
  obtain ⟨hnd1, hnd2, hpd, htpd, hi2a, hi2b⟩ := h
  have hcol : NoListCollision c.subscription_lists m.uniqueToken :=
    NoListCollision_of_good c m.uniqueToken hnd2 hi2a hGood
  cases htm : lookupA c.token_map m.uniqueToken with
  | some subs =>
      rw [CatalogAdd_eq_some c key m ok subs htm]
      simp only []
      by_cases hk : g_char_ptr_array_contains subs.keys key = true
      · rw [if_pos hk]
        refine ⟨hnd1, addLists_nodupKeys _ key _ hnd2, addLists_PD _ key _ hpd,
          htpd, ?_, ?_⟩
        · intro key' l' hl' t ht
          rcases addLists_lookup_cases c.subscription_lists key m.uniqueToken
            key' l' hl' with ⟨_, hold⟩ | ⟨hkeq, _, hleq⟩ |
            ⟨hkeq, l, hsl, _, hleq⟩ | ⟨hkeq, l, hsl, _, hleq⟩
          · exact hi2a key' l' hold t ht
          · rw [hleq] at ht
            rcases List.mem_singleton.mp ht with rfl
            rw [hkeq]
            exact ⟨subs, htm, (g_char_ptr_array_contains_iff _ _).mp hk⟩
          · rw [hleq] at ht
            rw [hkeq] at hl' ⊢
            exact hi2a key l hsl t ht
          · rw [hleq] at ht
            rw [hkeq]
            rcases List.mem_append.mp ht with ht2 | ht2
            · exact hi2a key l hsl t ht2
            · rcases List.mem_singleton.mp ht2 with rfl
              exact ⟨subs, htm, (g_char_ptr_array_contains_iff _ _).mp hk⟩
        · intro t s hts key2 hk2
          rcases hi2b t s hts key2 hk2 with ⟨l₀, hl₀, ht₀⟩
          exact addLists_preserves_mem c.subscription_lists key key2
            m.uniqueToken t l₀ hl₀ ht₀
      · rw [if_neg hk]
        have hkeq2 : keysOf (insertA c.token_map m.uniqueToken
            { subs with keys := subs.keys ++ [key] }) = keysOf c.token_map :=
          keysOf_insertA_of_mem _ _ _ (mem_keysOf_of_lookupA _ _ _ htm)
        have hnewsub : ∀ key0, key0 ∈ subs.keys ∨ key0 = key →
            ∃ s, lookupA (insertA c.token_map m.uniqueToken
              { subs with keys := subs.keys ++ [key] }) m.uniqueToken =
              some s ∧ key0 ∈ s.keys := by
          intro key0 hcase
          refine ⟨{ subs with keys := subs.keys ++ [key] },
            lookupA_insertA_self _ _ _, ?_⟩
          rcases hcase with hmem | heq
          · exact List.mem_append_left _ hmem
          · rw [heq]
            exact List.mem_append_right _ (List.mem_singleton.mpr rfl)
        have holdsub : ∀ key0 t, t ∈ keysOf c.token_map →
            (∃ s, lookupA c.token_map t = some s ∧ key0 ∈ s.keys) →
            ∃ s, lookupA (insertA c.token_map m.uniqueToken
              { subs with keys := subs.keys ++ [key] }) t = some s ∧
              key0 ∈ s.keys := by
          intro key0 t _ hcase
          rcases hcase with ⟨s, hts, hmem⟩
          by_cases hteq : t = m.uniqueToken
          · rw [hteq] at hts
            rw [htm, Option.some.injEq] at hts
            rw [hteq]
            refine ⟨{ subs with keys := subs.keys ++ [key] },
              lookupA_insertA_self _ _ _, ?_⟩
            rw [← hts] at hmem
            exact List.mem_append_left _ hmem
          · exact ⟨s, by rw [lookupA_insertA_ne _ _ _ _ hteq]; exact hts, hmem⟩
        refine ⟨?_, addLists_nodupKeys _ key _ hnd2, addLists_PD _ key _ hpd,
          ?_, ?_, ?_⟩
        · rw [hkeq2]
          exact hnd1
        · intro t₁ h₁ t₂ h₂ hm
          rw [hkeq2] at h₁ h₂
          exact htpd t₁ h₁ t₂ h₂ hm
        · intro key' l' hl' t ht
          rcases addLists_lookup_cases c.subscription_lists key m.uniqueToken
            key' l' hl' with ⟨_, hold⟩ | ⟨hkq, _, hleq⟩ |
            ⟨hkq, l, hsl, _, hleq⟩ | ⟨hkq, l, hsl, _, hleq⟩
          · rcases hi2a key' l' hold t ht with ⟨s, hts, hmem⟩
            exact holdsub key' t (mem_keysOf_of_lookupA _ _ _ hts) ⟨s, hts, hmem⟩
          · rw [hleq] at ht
            rcases List.mem_singleton.mp ht with rfl
            rw [hkq]
            exact hnewsub key (Or.inr rfl)
          · rw [hleq] at ht
            rw [hkq] at hl' ⊢
            rcases hi2a key l hsl t ht with ⟨s, hts, hmem⟩
            exact holdsub key t (mem_keysOf_of_lookupA _ _ _ hts) ⟨s, hts, hmem⟩
          · rw [hleq] at ht
            rw [hkq]
            rcases List.mem_append.mp ht with ht2 | ht2
            · rcases hi2a key l hsl t ht2 with ⟨s, hts, hmem⟩
              exact holdsub key t (mem_keysOf_of_lookupA _ _ _ hts) ⟨s, hts, hmem⟩
            · rcases List.mem_singleton.mp ht2 with rfl
              exact hnewsub key (Or.inr rfl)
        · intro t s hts key2 hk2
          by_cases hteq : t = m.uniqueToken
          · rw [hteq, lookupA_insertA_self, Option.some.injEq] at hts
            rw [← hts] at hk2
            rw [hteq]
            rcases List.mem_append.mp hk2 with hmem | hmem
            · rcases hi2b m.uniqueToken subs htm key2 hmem with ⟨l₀, hl₀, ht₀⟩
              exact addLists_preserves_mem c.subscription_lists key key2
                m.uniqueToken m.uniqueToken l₀ hl₀ ht₀
            · rcases List.mem_singleton.mp hmem with rfl
              exact addLists_token_mem c.subscription_lists key2
                m.uniqueToken hcol
          · rw [lookupA_insertA_ne _ _ _ _ hteq] at hts
            rcases hi2b t s hts key2 hk2 with ⟨l₀, hl₀, ht₀⟩
            exact addLists_preserves_mem c.subscription_lists key key2
              m.uniqueToken t l₀ hl₀ ht₀
  | none =>
      have hfresh : m.uniqueToken ∉ keysOf c.token_map :=
        (lookupA_none_iff _ _).mp htm
      cases ok with
      | true =>
          rw [CatalogAdd_eq_none_ok c key m htm]
          simp only []
          have hkeq2 : keysOf (insertA c.token_map m.uniqueToken
              { message := m, keys := [key], ref := 1 }) =
              keysOf c.token_map ++ [m.uniqueToken] :=
            keysOf_insertA_of_not_mem _ _ _ hfresh
          have hnewsub : ∀ key0, key0 = key →
              ∃ s, lookupA (insertA c.token_map m.uniqueToken
                { message := m, keys := [key], ref := 1 }) m.uniqueToken =
                some s ∧ key0 ∈ s.keys := by
            intro key0 heq
            refine ⟨{ message := m, keys := [key], ref := 1 },
              lookupA_insertA_self _ _ _, ?_⟩
            rw [heq]
            exact List.mem_singleton.mpr rfl
          have holdsub : ∀ key0 t,
              (∃ s, lookupA c.token_map t = some s ∧ key0 ∈ s.keys) →
              ∃ s, lookupA (insertA c.token_map m.uniqueToken
                { message := m, keys := [key], ref := 1 }) t = some s ∧
                key0 ∈ s.keys := by
            intro key0 t hcase
            rcases hcase with ⟨s, hts, hmem⟩
            have hne : t ≠ m.uniqueToken := by
              intro heq
              rw [heq] at hts
              exact hfresh (mem_keysOf_of_lookupA _ _ _ hts)
            exact ⟨s, by rw [lookupA_insertA_ne _ _ _ _ hne]; exact hts, hmem⟩
          refine ⟨nodup_keysOf_insertA _ _ _ hnd1,
            addLists_nodupKeys _ key _ hnd2, addLists_PD _ key _ hpd,
            ?_, ?_, ?_⟩
          · intro t₁ h₁ t₂ h₂ hm
            rw [hkeq2] at h₁ h₂
            rcases List.mem_append.mp h₁ with h₁ | h₁ <;>
              rcases List.mem_append.mp h₂ with h₂ | h₂
            · exact htpd t₁ h₁ t₂ h₂ hm
            · rcases List.mem_singleton.mp h₂ with rfl
              exact hGood t₁ h₁ hm
            · rcases List.mem_singleton.mp h₁ with rfl
              rw [strncmpEq50_comm] at hm
              exact (hGood t₂ h₂ hm).symm
            · rcases List.mem_singleton.mp h₁ with rfl
              rcases List.mem_singleton.mp h₂ with rfl
              rfl
          · intro key' l' hl' t ht
            rcases addLists_lookup_cases c.subscription_lists key m.uniqueToken
              key' l' hl' with ⟨_, hold⟩ | ⟨hkq, _, hleq⟩ |
              ⟨hkq, l, hsl, hcont, hleq⟩ | ⟨hkq, l, hsl, _, hleq⟩
            · exact holdsub key' t (hi2a key' l' hold t ht)
            · rw [hleq] at ht
              rcases List.mem_singleton.mp ht with rfl
              rw [hkq]
              exact hnewsub key rfl
            · exfalso
              rcases (_SubListContains_iff l m.uniqueToken).mp hcont
                with ⟨t2, ht2, hm2⟩
              have ht2eq : t2 = m.uniqueToken :=
                hcol (key, l) (lookupA_mem _ _ _ hsl) t2 ht2 hm2
              rcases hi2a key l hsl t2 ht2 with ⟨s, hts, _⟩
              rw [ht2eq] at hts
              exact hfresh (mem_keysOf_of_lookupA _ _ _ hts)
            · rw [hleq] at ht
              rw [hkq] at hl' ⊢
              rcases List.mem_append.mp ht with ht2 | ht2
              · exact holdsub key t (hi2a key l hsl t ht2)
              · rcases List.mem_singleton.mp ht2 with rfl
                exact hnewsub key rfl
          · intro t s hts key2 hk2
            by_cases hteq : t = m.uniqueToken
            · rw [hteq, lookupA_insertA_self, Option.some.injEq] at hts
              rw [← hts] at hk2
              rcases List.mem_singleton.mp hk2 with rfl
              rw [hteq]
              exact addLists_token_mem c.subscription_lists key2
                m.uniqueToken hcol
            · rw [lookupA_insertA_ne _ _ _ _ hteq] at hts
              rcases hi2b t s hts key2 hk2 with ⟨l₀, hl₀, ht₀⟩
              exact addLists_preserves_mem c.subscription_lists key key2
                m.uniqueToken t l₀ hl₀ ht₀
      | false =>
          rw [CatalogAdd_eq_none_fail c key m htm]
          simp only []
          refine ⟨hnd1, addListsFail_nodupKeys _ key hnd2,
            addListsFail_PD _ key hpd, htpd, ?_, ?_⟩
          · intro key' l' hl' t ht
            rcases addListsFail_lookup_cases c.subscription_lists key key' l'
              hl' with hold | ⟨_, _, hleq⟩
            · exact hi2a key' l' hold t ht
            · rw [hleq] at ht
              simp at ht
          · intro t s hts key2 hk2
            rcases hi2b t s hts key2 hk2 with ⟨l₀, hl₀, ht₀⟩
            exact addListsFail_preserves_mem c.subscription_lists key key2 t
              l₀ hl₀ ht₀

theorem StateInv_remove (c : Catalog) (tok : String) (notify : Bool)
    (h : StateInv c) : StateInv (_CatalogRemoveToken c tok notify).2 := by
  obtain ⟨hnd1, hnd2, hpd, htpd, hi2a, hi2b⟩ := h
  cases htm : lookupA c.token_map tok with
  | none =>
      rw [CatalogRemoveToken_eq_none c tok notify htm]
      exact ⟨hnd1, hnd2, hpd, htpd, hi2a, hi2b⟩
  | some subs =>
      rw [CatalogRemoveToken_eq_some c tok notify subs htm]
      simp only []
      refine ⟨nodup_keysOf_eraseA _ _ hnd1,
        removeKeys_nodupKeys tok subs.keys _ hnd2,
        removeKeys_PD tok subs.keys _ hpd, ?_, ?_, ?_⟩
      · intro t₁ h₁ t₂ h₂ hm
        have hsub : ∀ t, t ∈ keysOf (eraseA c.token_map tok) →
            t ∈ keysOf c.token_map :=
          fun t ht => ((eraseA_sublist c.token_map tok).map Prod.fst).subset ht
        exact htpd t₁ (hsub t₁ h₁) t₂ (hsub t₂ h₂) hm
      · intro key' l' hl' t ht
        rcases removeKeys_lookup_sub tok subs.keys c.subscription_lists key' l'
          hnd2 hl' with ⟨l, hl, hsubl⟩
        have htl : t ∈ l := hsubl.subset ht
        rcases hi2a key' l hl t htl with ⟨s, hts, hmem⟩
        have htne : t ≠ tok := by
          intro heq
          rw [heq] at hts
          rw [htm, Option.some.injEq] at hts
          have hkey' : key' ∈ subs.keys := by
            rw [← hts] at hmem
            exact hmem
          rcases removeKeys_processed tok subs.keys c.subscription_lists key'
            hnd2 hpd hkey' l' hl' with ⟨hno, _⟩
          have h2 := hno t ht
          rw [heq, strncmpEq50_refl] at h2
          exact absurd h2 (by simp)
        refine ⟨s, ?_, hmem⟩
        rw [lookupA_eraseA_ne c.token_map tok t htne]
        exact hts
      · intro t s hts key2 hk2
        have htne : t ≠ tok := by
          intro heq
          rw [heq, lookupA_eraseA_self c.token_map tok hnd1] at hts
          exact absurd hts (by simp)
        rw [lookupA_eraseA_ne c.token_map tok t htne] at hts
        rcases hi2b t s hts key2 hk2 with ⟨l₀, hl₀, ht₀⟩
        have hnm : strncmpEq50 t tok = false := by
          cases hb : strncmpEq50 t tok with
          | false => rfl
          | true =>
              exact absurd (htpd t (mem_keysOf_of_lookupA _ _ _ hts) tok
                (mem_keysOf_of_lookupA _ _ _ htm) hb) htne
        exact removeKeys_survives tok subs.keys c.subscription_lists key2 l₀ t
          hl₀ ht₀ hnm

theorem StateInv_handleCancel (c : Catalog) (m : Message) (h : StateInv c) :
    StateInv (_CatalogHandleCancel c m).2 := by
  rw [_CatalogHandleCancel]
  cases hp : m.payloadParse with
  | none => exact h
  | some obj =>
      simp only []
      cases ht : json_object_object_get_ex obj "token" with
      | none => exact h
      | some v =>
          simp only []
          exact StateInv_remove c _ true h

theorem StateInv_process (c : Catalog) (m : Message) (subscribed ok : Bool)
    (h : StateInv c)
    (hGood : ∀ t ∈ keysOf c.token_map,
      strncmpEq50 t m.uniqueToken = true → t = m.uniqueToken) :
    StateInv (LSSubscriptionProcess c m subscribed ok).2.2 := by
  rw [LSSubscriptionProcess]
  cases hp : m.payloadParse with
  | none => exact h
  | some obj =>
      simp only []
      cases ht : json_object_object_get_ex obj "subscribe" with
      | none => exact h
      | some v =>
          simp only []
          by_cases hb : json_object_get_boolean v = true
          · rw [if_pos hb]
            exact StateInv_add c m.kind m ok h hGood
          · rw [if_neg hb]
            exact h

theorem StateInv_iterRemove (c : Catalog) (iter : LSSubscriptionIter)
    (h : StateInv c) : StateInv (LSSubscriptionRemoveCurrent c iter) := by
  rw [LSSubscriptionRemoveCurrent]
  cases hg : _SubListGet iter.tokens iter.index with
  | none => exact h
  | some tok =>
      simp only []
      exact StateInv_remove c tok false h

theorem StateInv_empty : StateInv emptyCatalog := by
  refine ⟨?_, ?_, ?_, ?_, ?_, ?_⟩
  · simp [emptyCatalog, keysOf]
  · simp [emptyCatalog, keysOf]
  · intro p hp
    simp [emptyCatalog] at hp
  · intro t₁ h₁
    simp [emptyCatalog, keysOf] at h₁
  · intro key l hl
    simp [emptyCatalog, lookupA] at hl
  · intro t s hts
    simp [emptyCatalog, lookupA] at hts

theorem StateInv_reach (c : Catalog) (h : Reach GoodFresh50 c) : StateInv c := by
  induction h with
  | start => exact StateInv_empty
  | setCancel c' b _ ih =>
      obtain ⟨h1, h2, h3, h4, h5, h6⟩ := ih
      exact ⟨h1, h2, h3, h4, h5, h6⟩
  | add c' key m ok _ hg ih => exact StateInv_add c' key m ok ih hg
  | remove c' token notify _ ih => exact StateInv_remove c' token notify ih
  | cancel c' m _ ih => exact StateInv_handleCancel c' m ih
  | process c' m subscribed ok _ hg ih =>
      exact StateInv_process c' m subscribed ok ih hg
  | iterRemove c' iter _ ih => exact StateInv_iterRemove c' iter ih

theorem I2Check_of_StateInv (c : Catalog) (h : StateInv c) : I2Check c = true := by
  obtain ⟨hnd1, hnd2, _, _, hi2a, hi2b⟩ := h
  rw [I2Check, Bool.and_eq_true]
  constructor
  · rw [I2aCheck, List.all_eq_true]
    intro p hp
    rw [List.all_eq_true]
    intro t ht
    obtain ⟨key, l⟩ := p
    have hl := lookupA_of_mem_nodup c.subscription_lists key l hnd2 hp
    rcases hi2a key l hl t ht with ⟨s, hts, hmem⟩
    rw [hts]
    exact (g_char_ptr_array_contains_iff _ _).mpr hmem
  · rw [I2bCheck, List.all_eq_true]
    intro q hq
    rw [List.all_eq_true]
    intro key hkey
    obtain ⟨t, s⟩ := q
    have hts := lookupA_of_mem_nodup c.token_map t s hnd1 hq
    rcases hi2b t s hts key hkey with ⟨l, hl, htl⟩
    rw [hl]
    rw [decide_eq_true_eq]
    exact htl

/-- A message whose unique token is the first 51-character collider. -/
def mCol1 : Message :=
  { uniqueToken := colTok1, sender := "s1", senderServiceName := "com.s1",
    payload := "p1", payloadParse := none, kind := "/a/b" }

/-- A message whose unique token is the second 51-character collider. -/
def mCol2 : Message :=
  { uniqueToken := colTok2, sender := "s2", senderServiceName := "com.s2",
    payload := "p2", payloadParse := none, kind := "/a/b" }

/-- Counterexample to C3 as stated: adding two messages whose distinct
identifiers agree on their first 50 characters under the same key is a
reachable sequence after which I2 fails — the second identifier is in the
token map with the key in its Subscription's key set, yet the key's
SubscriberList does not contain it. -/
theorem i2_violated_by_collision_counterexample :
    Reach GoodAny
      (_CatalogAdd (_CatalogAdd emptyCatalog "k" mCol1 true).2 "k" mCol2 true).2 ∧
    I2Check
      (_CatalogAdd (_CatalogAdd emptyCatalog "k" mCol1 true).2 "k" mCol2 true).2 =
      false :=
  ⟨Reach.add (_CatalogAdd emptyCatalog "k" mCol1 true).2 "k" mCol2 true
    (Reach.add emptyCatalog "k" mCol1 true Reach.start trivial) trivial,
   by decide⟩

/-- C3, amended: bidirectional index consistency I2 holds in every state
reachable by the catalog operations provided every added identifier is
distinguished from the already-indexed identifiers by its first 50
characters; without that proviso two colliding identifiers break it. -/
theorem i2_bidirectional_amended (c : Catalog) (h : Reach GoodFresh50 c) :
    I2Check c = true :=
  I2Check_of_StateInv c (StateInv_reach c h)

/-- Witness for the amended C3: one add from the empty catalog (trivially
prefix-fresh) reaches a state satisfying I2. -/
theorem i2_bidirectional_amended_witness :
    I2Check (_CatalogAdd emptyCatalog "topicA" msgX true).2 = true :=
  i2_bidirectional_amended _
    (Reach.add emptyCatalog "topicA" msgX true Reach.start
      (by intro t ht; simp [emptyCatalog, keysOf] at ht))

theorem addLists_contains (sl : List (String × List String)) (k tok : String) :
    ∃ l, lookupA (addLists sl k tok) k = some l ∧
      _SubListContains l tok = true ∧
      (tok ∈ l ∨ ∃ t ∈ l, t ≠ tok ∧ strncmpEq50 t tok = true) := by
  cases hsl : lookupA sl k with
  | none =>
      refine ⟨[tok], ?_, ?_, Or.inl (List.mem_singleton.mpr rfl)⟩
      · simp only [addLists, hsl]
        exact lookupA_insertA_self sl k [tok]
      · rw [_SubListContains_iff]
        exact ⟨tok, List.mem_singleton.mpr rfl, strncmpEq50_refl tok⟩
  | some l =>
      by_cases hc : _SubListContains l tok = true
      · refine ⟨l, ?_, hc, ?_⟩
        · simp only [addLists, hsl, hc, if_true]
        · rcases (_SubListContains_iff l tok).mp hc with ⟨t, ht, hm⟩
          by_cases hte : t = tok
          · rw [hte] at ht
            exact Or.inl ht
          · exact Or.inr ⟨t, ht, hte, hm⟩
      · refine ⟨l ++ [tok], ?_, _SubListContains_append_self l tok,
          Or.inl (List.mem_append_right _ (List.mem_singleton.mpr rfl))⟩
        simp only [addLists, hsl, hc, Bool.false_eq_true, if_false]
        exact lookupA_insertA_self sl k _

/-- Counterexample to C1 as stated: from the reachable state holding the
51-character identifier colTok1 under key k, adding the colliding message
mCol2 under k and then under k2 succeeds both times, yet k's SubscriberList
still is exactly the singleton of colTok1 and does not contain mCol2's
identifier — the 50-character comparison in _SubListContains makes the
second add skip the list insertion. -/
theorem add_union_collision_counterexample :
    Reach GoodAny (_CatalogAdd emptyCatalog "k" mCol1 true).2 ∧
    (_CatalogAdd (_CatalogAdd emptyCatalog "k" mCol1 true).2 "k" mCol2
        true).1 = true ∧
    (_CatalogAdd (_CatalogAdd (_CatalogAdd emptyCatalog "k" mCol1 true).2 "k"
        mCol2 true).2 "k2" mCol2 true).1 = true ∧
    lookupA ((_CatalogAdd (_CatalogAdd (_CatalogAdd emptyCatalog "k" mCol1
        true).2 "k" mCol2 true).2 "k2" mCol2 true).2).subscription_lists "k" =
      some [colTok1] ∧
    mCol2.uniqueToken ∉ [colTok1] :=
  ⟨Reach.add emptyCatalog "k" mCol1 true Reach.start trivial,
   by decide, by decide, by decide, by decide⟩

/-- C1, amended: _CatalogAdd is idempotent — running the same add twice,
from any state and whatever the subscription-creation outcome, returns the
same result and state as running it once; and from any state whose token
column is duplicate-free, after adding the same message under keys k1 and
k2 exactly one token_map entry exists for its identifier and each of the
two keys' subscriber lists contains an entry agreeing with the identifier
on its first 50 characters — the identifier itself, unless the list
already held a distinct identifier agreeing with it on the first 50
characters, in which case the insertion was skipped and that colliding
entry stands in its place. -/
theorem add_idempotent_union_amended (c : Catalog) (k k1 k2 : String)
    (m : Message) :
    (∀ ok : Bool,
       _CatalogAdd (_CatalogAdd c k m ok).2 k m ok = _CatalogAdd c k m ok) ∧
    ((keysOf c.token_map).Nodup →
     (keysOf ((_CatalogAdd (_CatalogAdd c k1 m true).2 k2 m true).2).token_map).count
         m.uniqueToken = 1 ∧
     (∃ l₁, lookupA
         ((_CatalogAdd (_CatalogAdd c k1 m true).2 k2 m true).2).subscription_lists
         k1 = some l₁ ∧ _SubListContains l₁ m.uniqueToken = true ∧
         (m.uniqueToken ∈ l₁ ∨
          ∃ t ∈ l₁, t ≠ m.uniqueToken ∧ strncmpEq50 t m.uniqueToken = true)) ∧
     (∃ l₂, lookupA
         ((_CatalogAdd (_CatalogAdd c k1 m true).2 k2 m true).2).subscription_lists
         k2 = some l₂ ∧ _SubListContains l₂ m.uniqueToken = true ∧
         (m.uniqueToken ∈ l₂ ∨
          ∃ t ∈ l₂, t ≠ m.uniqueToken ∧ strncmpEq50 t m.uniqueToken = true))) := by
  constructor
  · intro ok
    exact CatalogAdd_idem c k m ok
  · intro hnd
    rcases CatalogAdd_count_one c k1 m hnd with ⟨hcount1, _⟩
    rcases CatalogAdd_lookup_token c k1 m with ⟨s, hs⟩
    refine ⟨?_, ?_, ?_⟩
    · rw [CatalogAdd_keysOf_of_some (_CatalogAdd c k1 m true).2 k2 m true s hs]
      exact hcount1
    · by_cases hk : k1 = k2
      · rw [hk]
        rw [CatalogAdd_lists (_CatalogAdd c k2 m true).2 k2 m]
        exact addLists_contains _ k2 m.uniqueToken
      · rw [CatalogAdd_lists (_CatalogAdd c k1 m true).2 k2 m,
          addLists_lookup_ne _ k2 k1 m.uniqueToken hk,
          CatalogAdd_lists c k1 m]
        exact addLists_contains _ k1 m.uniqueToken
    · rw [CatalogAdd_lists (_CatalogAdd c k1 m true).2 k2 m]
      exact addLists_contains _ k2 m.uniqueToken

/-- Witness for the amended C1 on the empty catalog with a concrete
message: a repeated add is a no-op and adding under the keys k1 and k2
yields one token_map entry for the identifier. -/
theorem add_idempotent_union_amended_witness :
    (keysOf emptyCatalog.token_map).Nodup ∧
    _CatalogAdd (_CatalogAdd emptyCatalog "k" msgX true).2 "k" msgX true =
      _CatalogAdd emptyCatalog "k" msgX true ∧
    (keysOf ((_CatalogAdd (_CatalogAdd emptyCatalog "k1" msgX true).2 "k2"
        msgX true).2).token_map).count msgX.uniqueToken = 1 :=
  ⟨by decide,
   (add_idempotent_union_amended emptyCatalog "k" "k1" "k2" msgX).1 true,
   ((add_idempotent_union_amended emptyCatalog "k" "k1" "k2" msgX).2
     (by decide)).1⟩
